import Mathlib

/-!
Verification of the adaptive vtbl-pointer dispatch cache (`vtblmap<T&>` in
vtblmap3.hpp, with the constants of config.hpp).  The C++ class is embedded
shallowly: identities (vtbl pointers) are natural numbers, the authoritative
table (std::unordered_map with reference-stable entries) is a list of entries
in insertion order, and the address of an entry is its index in that list
(valid because entries are only ever appended, mirroring the standard's
guarantee quoted at vtblmap3.hpp lines 409-415 that insertion never moves
stored values).  The double-valued Shannon entropy used by the rearrangement
scan enters only through the comparisons `e > e_max`; the embedding therefore
takes the entropy functional as an explicit parameter `E : List Nat → Int`
of every operation, and `entropyScore` below is the exact integer-valued
instance `table.size() * entropy` which coincides with the double computation
whenever every histogram count is a power of two (all concrete runs used in
the development are of that form).
-/

set_option autoImplicit false
set_option maxHeartbeats 1000000

namespace Vtbl

/-- config.hpp line 33: `const bit_offset_t max_log_size = 16`. -/
def max_log_size : Nat := 16

/-- config.hpp line 32: `const bit_offset_t min_log_size = 3`. -/
def min_log_size : Nat := 3

/-- config.hpp line 34: `const vtbl_count_t min_expected_size = 1 << min_log_size`. -/
def min_expected_size : Nat := 8

/-- config.hpp line 145 (non-MSC branch): `#define VTBL_IRRELEVANT_BITS 4`. -/
def VTBL_IRRELEVANT_BITS : Nat := 4

/-- vtblmap3.hpp line 324 with `VTBL_DEFAULT_CACHE_BITS = 7` (config.hpp line 112). -/
def local_cache_bits : Nat := 7

/-- Fuel-driven base-2 logarithm (structural recursion so that the kernel can
evaluate it); `log2fuel f n` is the floor of log2 of `n` whenever `f` is at
least the number of halvings needed, in particular whenever `n ≤ f`. -/
def log2fuel : Nat → Nat → Nat
  | 0, _ => 0
  | f+1, n => if 2 ≤ n then log2fuel f (n / 2) + 1 else 0

/-- Modelled from the spec: `req_bits` comes from ptrtools.hpp, which is not
part of the sources; the spec describes its uses as the number of bits needed
to represent a value, i.e. `n = req_bits(table.size()-1)` is the size needed
to hold the table (ceil of log2 of the table size) and `m = req_bits(diff)`
is (one past) the highest bit in which the identities differ.  Accordingly
`req_bits v = floor(log2 v) + 1`. -/
def req_bits (v : Nat) : Nat := log2fuel v v + 1

/-- Fuel-driven count of trailing zero bits. -/
def tzfuel : Nat → Nat → Nat
  | 0, _ => 0
  | f+1, n => if n % 2 = 1 ∨ n = 0 then 0 else tzfuel f (n / 2) + 1

/-- Modelled from the spec: `trailing_zeros` comes from ptrtools.hpp, which is
not part of the sources; the spec describes it as the count of trailing zero
bits of the XOR-difference of all identities seen (`z`, the number of lowest
bits in which the identities do not differ). -/
def trailing_zeros (v : Nat) : Nat := tzfuel v v

/-- One slot of the direct-mapped cache (vtblmap3.hpp lines 397-401):
the identity it caches (0 = empty, as established by memset) and the
address of the table entry it points to (`stored_type* ptr`, `none`
modelling the null pointer left by memset). -/
structure CacheEntry where
  vtbl : Nat
  ptr : Option Nat
deriving DecidableEq

def emptyEntry : CacheEntry := ⟨0, none⟩

/-- One entry of the authoritative table: the identity key, the payload of
type T (opaque; always the default value 0, since the component itself only
ever default-constructs payloads) and the access counter `hits` maintained
because config.hpp defines XTL_TRACE_PERFORMANCE (stored_type wrapper,
vtblmap3.hpp lines 327-334). -/
structure TableEntry where
  key : Nat
  val : Nat
  hits : Nat
deriving DecidableEq

/-- The state of `vtblmap<T&>` (vtblmap3.hpp lines 742-777).  The table is
kept in insertion order; the address of an entry is its index.  The inline
`local_cache` versus heap storage distinction affects only where the cache
array lives, not its contents, so the cache is a plain list of length
`cache_mask + 1`. -/
structure vtblmap where
  cache_mask : Nat
  cache : List CacheEntry
  optimal_shift : Nat
  table : List TableEntry
  last_table_size : Nat
  collisions_before_update : Int
deriving DecidableEq

def keysOf (t : List TableEntry) : List Nat := t.map (fun e => e.key)

/-- Position of the first occurrence of a key, i.e. the address
`&table.find(v)->second` of the stored value for `v`. -/
def keyFind : List Nat → Nat → Option Nat
  | [], _ => none
  | k :: ks, v => if k = v then some 0 else (keyFind ks v).map (· + 1)

def tableFind (t : List TableEntry) (v : Nat) : Option Nat := keyFind (keysOf t) v

/-- `++ce.ptr->hits` / `++result.hits` (vtblmap3.hpp lines 503 and 591). -/
def bumpHits : List TableEntry → Nat → List TableEntry
  | [], _ => []
  | e :: t, 0 => { e with hits := e.hits + 1 } :: t
  | e :: t, a+1 => e :: bumpHits t a

/-- `(vtbl >> shift) & mask` — the cache slot of an identity. -/
def bucketOf (shift mask v : Nat) : Nat := (v >>> shift) &&& mask

/-- Slot index used by `get` for identity `v` under the current parameters
(vtblmap3.hpp line 419). -/
def slotIdx (m : vtblmap) (v : Nat) : Nat := bucketOf m.optimal_shift m.cache_mask v

/-- Histogram built by `get_stats_for` (vtblmap3.hpp lines 607-610):
bucket `b` of the `2^log_size` buckets counts the table keys with
`(key >> shift) & (2^log_size - 1) = b`. -/
def histFor (ks : List Nat) (log_size shift : Nat) : List Nat :=
  (List.range (2 ^ log_size)).map
    (fun b => (ks.filter (fun v => bucketOf shift (2 ^ log_size - 1) v == b)).length)

/-- The `entries` count returned by `get_stats_for` (vtblmap3.hpp lines
613-624): the number of occupied buckets. -/
def occupied (h : List Nat) : Nat := (h.filter (fun c => c != 0)).length

/-- Exact integer surrogate for the double-precision
`table.size() * entropy` of a histogram: each occupied bucket with count c
contributes `c * (log2 total - log2 c)`.  It agrees with (a positive
rescaling of) the Shannon entropy computed by `get_stats_for` whenever all
counts are powers of two, which holds in every concrete run below; the
theorems themselves are stated for an arbitrary entropy functional. -/
def entropyScore (h : List Nat) : Int :=
  let total := h.sum
  ((h.filter (fun c => c != 0)).map
    (fun c => Int.ofNat c * (Int.ofNat (log2fuel total total) - Int.ofNat (log2fuel c c)))).sum

/-- State threaded through the candidate scan of `update`
(vtblmap3.hpp lines 536-565): running maximum entropy, current best
`(log_size, shift)` pair, the collision counter value to install, and
whether the `i = l2+1; break` double-loop exit has fired. -/
structure ScanState where
  e_max : Int
  no : Nat
  zo : Nat
  coll : Int
  done : Bool
deriving DecidableEq

/-- One iteration of the inner loop of `update` (vtblmap3.hpp lines
542-564): evaluate the candidate, adopt it if its entropy strictly exceeds
the running maximum (`e > e_max`), and short-circuit (setting the collision
budget to 1 and exiting both loops) if it has no conflicts, i.e. its
occupied-bucket count equals the table size.  The source performs the
adoption test first and then the break test; the nesting below enumerates
the same four outcomes. -/
def scanStep (E : List Nat → Int) (ks : List Nat) (size : Nat)
    (s : ScanState) (c : Nat × Nat) : ScanState :=
  if s.done then s
  else if occupied (histFor ks c.1 c.2) = size then
    if s.e_max < E (histFor ks c.1 c.2) then
      { s with e_max := E (histFor ks c.1 c.2), no := c.1, zo := c.2,
               coll := 1, done := true }
    else { s with coll := 1, done := true }
  else
    if s.e_max < E (histFor ks c.1 c.2) then
      { s with e_max := E (histFor ks c.1 c.2), no := c.1, zo := c.2 }
    else s

def scanAll (E : List Nat → Int) (ks : List Nat) (size : Nat)
    (s : ScanState) (cs : List (Nat × Nat)) : ScanState :=
  cs.foldl (scanStep E ks size) s

/-- The shift values `j = z, ..., m - i` tried for log size `i`
(vtblmap3.hpp line 542; `m - i` is computed in ints, so a negative bound
yields an empty range). -/
def shiftRange (z mm i : Nat) : List Nat :=
  if i ≤ mm then List.range' z (mm - i + 1 - z) else []

/-- All candidate pairs `(i, j)` visited by the double loop of `update`
in loop order: `i = l1, ..., l2` outer, `j = z, ..., mm - i` inner. -/
def candidateList (l1 l2 z mm : Nat) : List (Nat × Nat) :=
  ((List.range' l1 (l2 + 1 - l1)).map
    (fun i => (shiftRange z mm i).map (fun j => (i, j)))).flatten

/-- The prefix of a candidate list that the scan actually evaluates: every
candidate up to and including the first one with no conflicts (the break
at vtblmap3.hpp lines 557-563 skips the rest). -/
def examinedFrom (ks : List Nat) (size : Nat) : List (Nat × Nat) → List (Nat × Nat)
  | [] => []
  | c :: cs =>
      if occupied (histFor ks c.1 c.2) = size then [c]
      else c :: examinedFrom ks size cs

/-- `diff` as computed at vtblmap3.hpp lines 512-520: starting from
`prev = vtbl`, OR together the XORs of consecutive keys. -/
def diffOf (prev0 : Nat) (ks : List Nat) : Nat :=
  (ks.foldl (fun acc k => (acc.1 ||| (acc.2 ^^^ k), k)) ((0 : Nat), prev0)).1

/-- Parameters of the scan performed by `update E m v` (vtblmap3.hpp lines
530-535).  At the point where they are computed, `v` has already been
inserted, so the table size is `m.table.length + 1`. -/
def updSize (m : vtblmap) : Nat := m.table.length + 1

def updDiff (m : vtblmap) (v : Nat) : Nat := diffOf v (keysOf m.table)

/-- `k = req_bits(cache_mask)` — current log size (line 530). -/
def updK (m : vtblmap) : Nat := req_bits m.cache_mask

/-- `n = req_bits(table.size()-1)` — needed log size (line 531). -/
def updN (m : vtblmap) : Nat := req_bits (updSize m - 1)

/-- `m = req_bits(diff)` — one past the highest differing bit (line 532). -/
def updM (m : vtblmap) (v : Nat) : Nat := req_bits (updDiff m v)

/-- `z = trailing_zeros(diff)` — lowest bits in which identities agree
(line 533). -/
def updZ (m : vtblmap) (v : Nat) : Nat := trailing_zeros (updDiff m v)

/-- Lower end of the log-size search range on the lookup-miss path:
`l1 = min(max_log_size, max(k,n))` (vtblmap3.hpp line 534). -/
def lowerMiss (k n : Nat) : Nat := min max_log_size (max k n)

/-- Lower end of the log-size search range on the diagnostic-dump path:
`l1 = min(max_log_size, min(k,n))` (vtblmap3.hpp line 725). -/
def lowerDump (k n : Nat) : Nat := min max_log_size (min k n)

def updL1 (m : vtblmap) : Nat := lowerMiss (updK m) (updN m)

/-- `l2 = min(max_log_size, max(k, n+1))` (vtblmap3.hpp line 535). -/
def updL2 (m : vtblmap) : Nat := min max_log_size (max (updK m) (updN m + 1))

def updCands (m : vtblmap) (v : Nat) : List (Nat × Nat) :=
  candidateList (updL1 m) (updL2 m) (updZ m v) (updM m v)

/-- Initial scan state: `e_max = 0.0`, `no = l1`, `zo = z`,
`collisions_before_update = 4` (vtblmap3.hpp lines 526, 536-538). -/
def initScan (m : vtblmap) (v : Nat) : ScanState :=
  ⟨0, updL1 m, updZ m v, 4, false⟩

/-- The table keys over which the scan of `update E m v` computes its
histograms: the current keys plus the identity just inserted. -/
def updKeys (m : vtblmap) (v : Nat) : List Nat := keysOf m.table ++ [v]

/-- Candidates actually evaluated by the scan of `update E m v`. -/
def updExamined (m : vtblmap) (v : Nat) : List (Nat × Nat) :=
  examinedFrom (updKeys m v) (updSize m) (updCands m v)

/-- The final scan state of `update E m v` (vtblmap3.hpp lines 540-565). -/
def updScan (E : List Nat → Int) (m : vtblmap) (v : Nat) : ScanState :=
  scanAll E (updKeys m v) (updSize m) (initScan m v) (updCands m v)

/-- Cache rebuild loop of `update` (vtblmap3.hpp lines 579-585): write every
table entry (address `a` onwards) into its slot, later entries overwriting
earlier ones on collision exactly as the iteration does. -/
def rebuildAux : List TableEntry → Nat → Nat → Nat → List CacheEntry → List CacheEntry
  | [], _, _, _, c => c
  | e :: t, a, shift, mask, c =>
      rebuildAux t (a+1) shift mask (c.set (bucketOf shift mask e.key) ⟨e.key, some a⟩)

/-- Tail of `update` after the candidate scan produced `s` (vtblmap3.hpp
lines 567-592): grow the cache if the adopted log size exceeds the current
one, clear it, install the adopted shift, rebuild every slot from the table
(which already contains the new identity at address `m.table.length`), bump
the hit counter of the inserted entry, and return its address. -/
def updApply (m : vtblmap) (v : Nat) (s : ScanState) : vtblmap × Nat :=
  ({ cache_mask := if updK m < s.no then 2 ^ s.no - 1 else m.cache_mask,
     cache := rebuildAux (m.table ++ [⟨v, 0, 0⟩]) 0 s.zo
       (if updK m < s.no then 2 ^ s.no - 1 else m.cache_mask)
       (List.replicate (if updK m < s.no then 2 ^ s.no else 2 ^ updK m) emptyEntry),
     optimal_shift := s.zo,
     table := bumpHits (m.table ++ [⟨v, 0, 0⟩]) m.table.length,
     last_table_size := updSize m,
     collisions_before_update := s.coll }, m.table.length)

/-- `update(vtbl)` (vtblmap3.hpp lines 507-593): recompute `diff`, insert the
new identity, reset the collision budget to 4, scan the candidate
`(log_size, shift)` pairs, and rebuild the cache under the adopted
arrangement. -/
def update (E : List Nat → Int) (m : vtblmap) (v : Nat) : vtblmap × Nat :=
  updApply m v (updScan E m v)

/-- Shared tail of the two plain-miss insertion paths of `get`
(vtblmap3.hpp line 435): insert a default-constructed entry, point the slot
at it, set the slot identity, bump the hit counter, return the address. -/
def insertFresh (m : vtblmap) (v i : Nat) (coll : Int) : vtblmap × Nat :=
  let a := m.table.length
  ({ m with cache := m.cache.set i ⟨v, some a⟩,
            table := bumpHits (m.table ++ [⟨v, 0, 0⟩]) a,
            collisions_before_update := coll }, a)

/-- The cache entry `ce` probed by `get` for identity `v`
(vtblmap3.hpp line 419). -/
def cacheAt (m : vtblmap) (v : Nat) : CacheEntry :=
  m.cache.getD (slotIdx m v) emptyEntry

/-- `get(p)` (vtblmap3.hpp lines 416-505), with the identity passed directly.
Returns the new map state and the address of the returned reference.  On a
hit the cached pointer is returned; on a miss the table is consulted; a miss
with the identity absent either inserts directly or, when the slot holds a
live different identity, the table has grown since the last rearrangement
and the decremented collision budget reaches zero, rearranges via `update`. -/
def get (E : List Nat → Int) (m : vtblmap) (v : Nat) : vtblmap × Nat :=
  if (cacheAt m v).vtbl = v then
    ({ m with table := bumpHits m.table ((cacheAt m v).ptr.getD 0) },
     (cacheAt m v).ptr.getD 0)
  else
    match tableFind m.table v with
    | some a =>
        ({ m with cache := m.cache.set (slotIdx m v) ⟨v, some a⟩,
                  table := bumpHits m.table a }, a)
    | none =>
        if (cacheAt m v).vtbl ≠ 0 ∧ m.table.length ≠ m.last_table_size then
          if m.collisions_before_update - 1 = 0 then update E m v
          else insertFresh m v (slotIdx m v) (m.collisions_before_update - 1)
        else insertFresh m v (slotIdx m v) m.collisions_before_update

/-- The constructor (vtblmap3.hpp lines 376-386):
`cache_mask = (1 << min(max_log_size, req_bits(expected_size-1))) - 1`,
cache zeroed, `optimal_shift = VTBL_IRRELEVANT_BITS`, empty table,
`last_table_size = 0`, `collisions_before_update = 1`.  (`expected_size - 1`
is truncated subtraction; the C expression is only meaningful for
`expected_size ≥ 1`, which every theorem below assumes.) -/
def vtblmapInit (expected_size : Nat) : vtblmap :=
  let log := min max_log_size (req_bits (expected_size - 1))
  { cache_mask := 2 ^ log - 1,
    cache := List.replicate (2 ^ log) emptyEntry,
    optimal_shift := VTBL_IRRELEVANT_BITS,
    table := [],
    last_table_size := 0,
    collisions_before_update := 1 }

/-- Run a sequence of `get` calls, returning the final state. -/
def runGets (E : List Nat → Int) (m : vtblmap) : List Nat → vtblmap
  | [] => m
  | v :: vs => runGets E (get E m v).1 vs

/-- Run a sequence of `get` calls, returning the addresses handed out. -/
def runTrace (E : List Nat → Int) (m : vtblmap) : List Nat → List Nat
  | [] => []
  | v :: vs => (get E m v).2 :: runTrace E (get E m v).1 vs

/-- The per-slot part of the cache consistency invariant: a slot is either
empty (identity 0) or caches an identity that is present in the table, with
its pointer the address of that identity's entry and its index the slot the
identity hashes to under the current shift and mask. -/
def slotClause (m : vtblmap) (i : Nat) (ce : CacheEntry) : Prop :=
  ce.vtbl = 0 ∨
    (ce.ptr ≠ none ∧ tableFind m.table ce.vtbl = ce.ptr ∧ i = slotIdx m ce.vtbl)

/-- `cache_mask = 2^L - 1` for some `1 ≤ L ≤ max_log_size` (decidably). -/
def maskOK (mask : Nat) : Prop :=
  ((List.range' 1 max_log_size).any (fun L => mask == 2 ^ L - 1)) = true

/-- Structural invariant of a `vtblmap`: well-formed mask and cache length,
distinct table keys, positive collision budget, memoized size not exceeding
the table size, and every cache slot consistent. -/
def Inv (m : vtblmap) : Prop :=
  maskOK m.cache_mask ∧
  m.cache.length = m.cache_mask + 1 ∧
  (keysOf m.table).Nodup ∧
  1 ≤ m.collisions_before_update ∧
  m.last_table_size ≤ m.table.length ∧
  ∀ i, i < m.cache.length → slotClause m i (m.cache.getD i emptyEntry)

/-- Every identity in the table sits in its own cache slot: the state left
by a rearrangement that found a zero-collision arrangement. -/
def PerfectCache (m : vtblmap) : Prop :=
  ∀ v ∈ keysOf m.table, (m.cache.getD (slotIdx m v) emptyEntry).vtbl = v

instance (mask : Nat) : Decidable (maskOK mask) := by
  unfold maskOK; infer_instance

instance (m : vtblmap) (i : Nat) (ce : CacheEntry) : Decidable (slotClause m i ce) := by
  unfold slotClause; infer_instance

instance (m : vtblmap) : Decidable (Inv m) := by
  unfold Inv; infer_instance

instance (m : vtblmap) : Decidable (PerfectCache m) := by
  unfold PerfectCache; infer_instance

/-! ### Basic lemmas about the list-level helpers -/

theorem bumpHits_length (t : List TableEntry) (a : Nat) :
    (bumpHits t a).length = t.length := by
  induction t generalizing a with
  | nil => rfl
  | cons e t ih =>
      cases a with
      | zero => simp [bumpHits]
      | succ a => simp [bumpHits, ih]

theorem keysOf_bumpHits (t : List TableEntry) (a : Nat) :
    keysOf (bumpHits t a) = keysOf t := by
  induction t generalizing a with
  | nil => rfl
  | cons e t ih =>
      cases a with
      | zero => simp [bumpHits, keysOf]
      | succ a => simp [bumpHits, keysOf] at ih ⊢; exact ih a

theorem keysOf_append (t : List TableEntry) (e : TableEntry) :
    keysOf (t ++ [e]) = keysOf t ++ [e.key] := by
  simp [keysOf]

theorem keysOf_length (t : List TableEntry) : (keysOf t).length = t.length := by
  simp [keysOf]

theorem bumpHits_get?_ne (t : List TableEntry) (a b : Nat) (h : b ≠ a) :
    (bumpHits t a).get? b = t.get? b := by
  induction t generalizing a b with
  | nil => rfl
  | cons e t ih =>
      cases a with
      | zero =>
          cases b with
          | zero => exact absurd rfl h
          | succ b => simp [bumpHits]
      | succ a =>
          cases b with
          | zero => simp [bumpHits]
          | succ b =>
              simp only [bumpHits, List.get?]
              exact ih a b (fun hba => h (by rw [hba]))

theorem bumpHits_append_last (t : List TableEntry) (e : TableEntry) :
    bumpHits (t ++ [e]) t.length = t ++ [{ e with hits := e.hits + 1 }] := by
  induction t with
  | nil => rfl
  | cons f t ih => simp [bumpHits, ih]

theorem keyFind_cons_ne {ks : List Nat} {k v : Nat} (hk : k ≠ v) :
    keyFind (k :: ks) v = (keyFind ks v).map (· + 1) := by
  simp [keyFind, hk]

theorem keyFind_lt {ks : List Nat} {v a : Nat} (h : keyFind ks v = some a) :
    a < ks.length := by
  induction ks generalizing a with
  | nil => simp [keyFind] at h
  | cons k ks ih =>
      by_cases hk : k = v
      · simp only [keyFind, if_pos hk, Option.some.injEq] at h
        simp [← h]
      · rw [keyFind_cons_ne hk] at h
        cases hb : keyFind ks v with
        | none => rw [hb] at h; simp at h
        | some b =>
            rw [hb] at h
            simp at h
            have := ih hb
            simp [← h]
            omega

theorem keyFind_get? {ks : List Nat} {v a : Nat} (h : keyFind ks v = some a) :
    ks.get? a = some v := by
  induction ks generalizing a with
  | nil => simp [keyFind] at h
  | cons k ks ih =>
      by_cases hk : k = v
      · simp only [keyFind, if_pos hk, Option.some.injEq] at h
        rw [← h]
        simp [hk]
      · rw [keyFind_cons_ne hk] at h
        cases hb : keyFind ks v with
        | none => rw [hb] at h; simp at h
        | some b =>
            rw [hb] at h
            simp at h
            rw [← h]
            exact ih hb

theorem keyFind_none_iff {ks : List Nat} {v : Nat} :
    keyFind ks v = none ↔ v ∉ ks := by
  induction ks with
  | nil => simp [keyFind]
  | cons k ks ih =>
      by_cases hk : k = v
      · simp [keyFind, hk]
      · rw [keyFind_cons_ne hk]
        simp [ih, Ne.symm hk]

theorem keyFind_append_left {ks : List Nat} {v a : Nat} (l : List Nat)
    (h : keyFind ks v = some a) : keyFind (ks ++ l) v = some a := by
  induction ks generalizing a with
  | nil => simp [keyFind] at h
  | cons k ks ih =>
      by_cases hk : k = v
      · simp only [keyFind, if_pos hk, Option.some.injEq] at h
        simp [List.cons_append, keyFind, if_pos hk, h]
      · rw [keyFind_cons_ne hk] at h
        cases hb : keyFind ks v with
        | none => rw [hb] at h; simp at h
        | some b =>
            rw [hb] at h
            simp at h
            rw [List.cons_append, keyFind_cons_ne hk, ih hb]
            simp [h]

theorem keyFind_append_self {ks : List Nat} {v : Nat} (h : keyFind ks v = none) :
    keyFind (ks ++ [v]) v = some ks.length := by
  induction ks with
  | nil => simp [keyFind]
  | cons k ks ih =>
      by_cases hk : k = v
      · rw [keyFind_none_iff] at h
        exact absurd (by simp [hk]) h
      · rw [keyFind_cons_ne hk] at h
        cases hb : keyFind ks v with
        | some b => rw [hb] at h; simp at h
        | none =>
            rw [List.cons_append, keyFind_cons_ne hk, ih hb]
            simp

theorem keyFind_of_get?_nodup {ks : List Nat} (hn : ks.Nodup) {a v : Nat}
    (h : ks.get? a = some v) : keyFind ks v = some a := by
  induction ks generalizing a with
  | nil => simp at h
  | cons k ks ih =>
      rcases List.nodup_cons.1 hn with ⟨hk, hn'⟩
      cases a with
      | zero =>
          have hkv : k = v := by simpa using h
          simp [keyFind, hkv]
      | succ a =>
          have h' : ks.get? a = some v := h
          have hv : v ∈ ks := List.get?_mem h'
          have hne : k ≠ v := fun hkv => hk (hkv ▸ hv)
          rw [keyFind_cons_ne hne, ih hn' h']
          rfl

theorem tableFind_entry {t : List TableEntry} {v a : Nat}
    (h : tableFind t v = some a) : ∃ e, t.get? a = some e ∧ e.key = v := by
  have h1 := keyFind_get? h
  have h2 : (keysOf t).get? a = (t.get? a).map (fun e => e.key) := by
    simp [keysOf]
  rw [h2] at h1
  cases ht : t.get? a with
  | none => rw [ht] at h1; simp at h1
  | some e =>
      rw [ht] at h1
      simp at h1
      exact ⟨e, rfl, h1⟩

theorem getD_eq_get? {α : Type} (l : List α) (i : Nat) (d : α) :
    l.getD i d = (l.get? i).getD d := by
  induction l generalizing i with
  | nil => cases i <;> rfl
  | cons x l ih => cases i <;> simp [List.getD, ih]

theorem get?_set_self {α : Type} (l : List α) (i : Nat) (x : α) (h : i < l.length) :
    (l.set i x).get? i = some x := by
  induction l generalizing i with
  | nil => simp at h
  | cons y l ih =>
      cases i with
      | zero => rfl
      | succ i => simpa using ih i (by simpa using h)

theorem get?_set_ne {α : Type} (l : List α) (i j : Nat) (x : α) (h : i ≠ j) :
    (l.set j x).get? i = l.get? i := by
  induction l generalizing i j with
  | nil => rfl
  | cons y l ih =>
      cases j with
      | zero =>
          cases i with
          | zero => exact absurd rfl h
          | succ i => rfl
      | succ j =>
          cases i with
          | zero => rfl
          | succ i => simpa using ih i j (fun hij => h (by rw [hij]))

theorem get?_replicate {α : Type} (n i : Nat) (x : α) (h : i < n) :
    (List.replicate n x).get? i = some x := by
  induction n generalizing i with
  | zero => simp at h
  | succ n ih =>
      cases i with
      | zero => rfl
      | succ i => simpa [List.replicate] using ih i (by omega)

/-! ### Candidate ranges, mask shape and the scan fold -/

theorem mem_shiftRange {z mm i j : Nat} (h : j ∈ shiftRange z mm i) :
    z ≤ j ∧ i + j ≤ mm := by
  by_cases hi : i ≤ mm
  · rw [shiftRange, if_pos hi] at h
    rw [List.mem_range'_1] at h
    omega
  · rw [shiftRange, if_neg hi] at h
    simp at h

theorem mem_candidateList {l1 l2 z mm : Nat} {c : Nat × Nat}
    (h : c ∈ candidateList l1 l2 z mm) :
    l1 ≤ c.1 ∧ c.1 ≤ l2 ∧ z ≤ c.2 ∧ c.1 + c.2 ≤ mm := by
  rw [candidateList, List.mem_flatten] at h
  rcases h with ⟨l, hl, hc⟩
  rw [List.mem_map] at hl
  rcases hl with ⟨i, hi, rfl⟩
  rw [List.mem_range'_1] at hi
  rw [List.mem_map] at hc
  rcases hc with ⟨j, hj, rfl⟩
  have := mem_shiftRange hj
  refine ⟨hi.1, by omega, this.1, this.2⟩

theorem maskOK_iff {mask : Nat} :
    maskOK mask ↔ ∃ L, 1 ≤ L ∧ L ≤ max_log_size ∧ mask = 2 ^ L - 1 := by
  rw [maskOK, List.any_eq_true]
  constructor
  · rintro ⟨L, hL, hEq⟩
    rw [List.mem_range'_1] at hL
    rw [beq_iff_eq] at hEq
    exact ⟨L, hL.1, by omega, hEq⟩
  · rintro ⟨L, h1, h2, rfl⟩
    refine ⟨L, ?_, by simp⟩
    rw [List.mem_range'_1]
    revert h2
    rw [max_log_size]
    omega

theorem req_bits_two_pow_sub_one :
    ∀ L, 1 ≤ L → L ≤ max_log_size → req_bits (2 ^ L - 1) = L := by
  have h : ∀ L, L < 17 → 1 ≤ L → req_bits (2 ^ L - 1) = L := by decide
  intro L h1 h2
  exact h L (by revert h2; rw [max_log_size]; omega) h1

theorem maskOK_req_bits {mask : Nat} (h : maskOK mask) :
    2 ^ req_bits mask = mask + 1 ∧ req_bits mask ≤ max_log_size := by
  rcases maskOK_iff.1 h with ⟨L, h1, h2, rfl⟩
  rw [req_bits_two_pow_sub_one L h1 h2]
  have : 1 ≤ 2 ^ L := Nat.one_le_two_pow
  exact ⟨by omega, h2⟩

/-- Whatever the scan adopts is either its initial pair or a candidate. -/
theorem scan_pair_prop (E : List Nat → Int) (ks : List Nat) (size : Nat)
    (P : Nat → Nat → Prop) :
    ∀ (cs : List (Nat × Nat)) (s : ScanState), P s.no s.zo →
      (∀ c ∈ cs, P c.1 c.2) →
      P (scanAll E ks size s cs).no (scanAll E ks size s cs).zo := by
  intro cs
  induction cs with
  | nil => intro s hs _; exact hs
  | cons c cs ih =>
      intro s hs hc
      have hstep : P (scanStep E ks size s c).no (scanStep E ks size s c).zo := by
        rw [scanStep]
        by_cases hd : s.done
        · rw [if_pos hd]; exact hs
        · rw [if_neg hd]
          by_cases ht : occupied (histFor ks c.1 c.2) = size
          · rw [if_pos ht]
            by_cases he : s.e_max < E (histFor ks c.1 c.2)
            · rw [if_pos he]; exact hc c (by simp)
            · rw [if_neg he]; exact hs
          · rw [if_neg ht]
            by_cases he : s.e_max < E (histFor ks c.1 c.2)
            · rw [if_pos he]; exact hc c (by simp)
            · rw [if_neg he]; exact hs
      exact ih (scanStep E ks size s c) hstep (fun c' hc' => hc c' (by simp [hc']))

/-- The collision budget after the scan is either untouched or the
short-circuit value 1. -/
theorem scan_coll_cases (E : List Nat → Int) (ks : List Nat) (size : Nat) :
    ∀ (cs : List (Nat × Nat)) (s : ScanState),
      (scanAll E ks size s cs).coll = s.coll ∨ (scanAll E ks size s cs).coll = 1 := by
  intro cs
  induction cs with
  | nil => intro s; exact Or.inl rfl
  | cons c cs ih =>
      intro s
      have hstep : (scanStep E ks size s c).coll = s.coll ∨
          (scanStep E ks size s c).coll = 1 := by
        rw [scanStep]
        by_cases hd : s.done
        · rw [if_pos hd]; exact Or.inl rfl
        · rw [if_neg hd]
          by_cases ht : occupied (histFor ks c.1 c.2) = size
          · rw [if_pos ht]
            by_cases he : s.e_max < E (histFor ks c.1 c.2)
            · rw [if_pos he]; exact Or.inr rfl
            · rw [if_neg he]; exact Or.inr rfl
          · rw [if_neg ht]
            by_cases he : s.e_max < E (histFor ks c.1 c.2)
            · rw [if_pos he]; exact Or.inl rfl
            · rw [if_neg he]; exact Or.inl rfl
      rcases ih (scanStep E ks size s c) with h | h
      · rw [scanAll, List.foldl_cons, ← scanAll, h]
        exact hstep
      · rw [scanAll, List.foldl_cons, ← scanAll, h]
        exact Or.inr rfl

/-! ### The cache rebuild of `update` -/

/-- What a rebuilt slot may contain, relative to the full table `t0` and the
new shift and mask: empty, or an entry of `t0` at its own address hashed to
this slot. -/
def RClause (t0 : List TableEntry) (shift mask i : Nat) (ce : CacheEntry) : Prop :=
  ce.vtbl = 0 ∨
    ∃ p e, t0.get? p = some e ∧ e.key = ce.vtbl ∧ ce.ptr = some p ∧
      i = bucketOf shift mask ce.vtbl

theorem rebuildAux_length (t : List TableEntry) (a shift mask : Nat)
    (c : List CacheEntry) : (rebuildAux t a shift mask c).length = c.length := by
  induction t generalizing a c with
  | nil => rfl
  | cons e t ih => simp [rebuildAux, ih]

theorem rebuildAux_spec (t0 : List TableEntry) (shift mask : Nat) :
    ∀ (t : List TableEntry) (a : Nat) (c : List CacheEntry),
      (∀ p e, t.get? p = some e → t0.get? (a + p) = some e) →
      (∀ i, i < c.length → RClause t0 shift mask i (c.getD i emptyEntry)) →
      ∀ i, i < (rebuildAux t a shift mask c).length →
        RClause t0 shift mask i ((rebuildAux t a shift mask c).getD i emptyEntry) := by
  intro t
  induction t with
  | nil => intro a c _ hc i hi; exact hc i (by simpa [rebuildAux] using hi)
  | cons e t ih =>
      intro a c ht hc i hi
      rw [rebuildAux] at hi ⊢
      refine ih (a+1) (c.set (bucketOf shift mask e.key) ⟨e.key, some a⟩) ?_ ?_ i hi
      · intro p f hp
        have := ht (p+1) f hp
        have harith : a + (p + 1) = (a + 1) + p := by omega
        rw [harith] at this
        exact this
      · intro j hj
        rw [List.length_set] at hj
        by_cases hb : j = bucketOf shift mask e.key
        · subst hb
          rw [getD_eq_get?, get?_set_self c _ _ hj]
          by_cases hz : e.key = 0
          · exact Or.inl (by simpa using hz)
          · refine Or.inr ⟨a, e, ?_, by simp, by simp, by simp⟩
            have := ht 0 e rfl
            simpa using this
        · rw [getD_eq_get?, get?_set_ne c j _ _ hb, ← getD_eq_get?]
          exact hc j hj

/-! ### Path lemmas for `get` -/

theorem keysOf_get? (t : List TableEntry) (p : Nat) :
    (keysOf t).get? p = (t.get? p).map (fun e => e.key) := by
  simp [keysOf]

theorem tableFind_bumpHits (t : List TableEntry) (a v : Nat) :
    tableFind (bumpHits t a) v = tableFind t v := by
  rw [tableFind, tableFind, keysOf_bumpHits]

theorem slotIdx_lt {m : vtblmap} (hlen : m.cache.length = m.cache_mask + 1)
    (v : Nat) : slotIdx m v < m.cache.length := by
  rw [hlen]
  exact Nat.lt_succ_of_le Nat.and_le_right

theorem get_hit (E : List Nat → Int) (m : vtblmap) (v : Nat)
    (h : (cacheAt m v).vtbl = v) :
    get E m v =
      ({ m with table := bumpHits m.table ((cacheAt m v).ptr.getD 0) },
       (cacheAt m v).ptr.getD 0) := by
  unfold get
  rw [if_pos h]

theorem get_found (E : List Nat → Int) (m : vtblmap) (v a : Nat)
    (h : (cacheAt m v).vtbl ≠ v)
    (hf : tableFind m.table v = some a) :
    get E m v =
      ({ m with cache := m.cache.set (slotIdx m v) ⟨v, some a⟩,
                table := bumpHits m.table a }, a) := by
  unfold get
  rw [if_neg h, hf]

theorem get_miss_cold (E : List Nat → Int) (m : vtblmap) (v : Nat)
    (h : (cacheAt m v).vtbl ≠ v)
    (hf : tableFind m.table v = none)
    (hc : ¬((cacheAt m v).vtbl ≠ 0 ∧ m.table.length ≠ m.last_table_size)) :
    get E m v = insertFresh m v (slotIdx m v) m.collisions_before_update := by
  unfold get
  rw [if_neg h, hf, if_neg hc]

theorem get_miss_tolerate (E : List Nat → Int) (m : vtblmap) (v : Nat)
    (h : (cacheAt m v).vtbl ≠ v)
    (hf : tableFind m.table v = none)
    (hc : (cacheAt m v).vtbl ≠ 0 ∧ m.table.length ≠ m.last_table_size)
    (hb : m.collisions_before_update - 1 ≠ 0) :
    get E m v = insertFresh m v (slotIdx m v) (m.collisions_before_update - 1) := by
  unfold get
  rw [if_neg h, hf, if_pos hc, if_neg hb]

theorem get_miss_update (E : List Nat → Int) (m : vtblmap) (v : Nat)
    (h : (cacheAt m v).vtbl ≠ v)
    (hf : tableFind m.table v = none)
    (hc : (cacheAt m v).vtbl ≠ 0 ∧ m.table.length ≠ m.last_table_size)
    (hb : m.collisions_before_update - 1 = 0) :
    get E m v = update E m v := by
  unfold get
  rw [if_neg h, hf, if_pos hc, if_pos hb]

/-! ### Invariant preservation -/

theorem req_bits_pos (v : Nat) : 1 ≤ req_bits v := by
  rw [req_bits]; omega

theorem nodup_snoc {ks : List Nat} {v : Nat} (hn : ks.Nodup) (hv : v ∉ ks) :
    (ks ++ [v]).Nodup := by
  rw [List.nodup_append]
  refine ⟨hn, List.nodup_singleton v, ?_⟩
  intro a ha hb
  rw [List.mem_singleton] at hb
  subst hb
  exact hv ha

theorem insertFresh_inv {m : vtblmap} {v : Nat} (coll : Int) (hI : Inv m)
    (hf : tableFind m.table v = none) (hcoll : 1 ≤ coll) :
    Inv (insertFresh m v (slotIdx m v) coll).1 := by
  obtain ⟨hmask, hlen, hnodup, _, hlast, hslots⟩ := hI
  have hvmem : v ∉ keysOf m.table := keyFind_none_iff.1 hf
  refine ⟨hmask, ?_, ?_, hcoll, ?_, ?_⟩
  · simpa [insertFresh] using hlen
  · simp only [insertFresh]
    rw [keysOf_bumpHits, keysOf_append]
    exact nodup_snoc hnodup hvmem
  · simp only [insertFresh]
    rw [bumpHits_length]
    simp
    omega
  · intro j hj
    simp only [insertFresh] at hj ⊢
    rw [List.length_set] at hj
    have hkeys : keysOf (bumpHits (m.table ++ [⟨v, 0, 0⟩]) m.table.length)
        = keysOf m.table ++ [v] := by
      rw [keysOf_bumpHits, keysOf_append]
    by_cases hji : j = slotIdx m v
    · subst hji
      rw [getD_eq_get?, get?_set_self _ _ _ hj]
      refine Or.inr ⟨by simp, ?_, ?_⟩
      · show tableFind _ v = some m.table.length
        rw [tableFind, hkeys, ← keysOf_length]
        exact keyFind_append_self hf
      · rfl
    · rw [getD_eq_get?, get?_set_ne _ _ _ _ hji, ← getD_eq_get?]
      rcases hslots j hj with hz | ⟨hptr, hfind, hidx⟩
      · exact Or.inl hz
      · refine Or.inr ⟨hptr, ?_, hidx⟩
        cases hp : (m.cache.getD j emptyEntry).ptr with
        | none => exact absurd hp hptr
        | some p =>
            rw [hp] at hfind
            have hfind' : keyFind (keysOf m.table) (m.cache.getD j emptyEntry).vtbl
                = some p := hfind
            show tableFind (bumpHits (m.table ++ [⟨v, 0, 0⟩]) m.table.length) _
                = some p
            rw [tableFind, hkeys]
            exact keyFind_append_left [v] hfind'

theorem updL1_pos (m : vtblmap) : 1 ≤ updL1 m := by
  rw [updL1, lowerMiss]
  have h1 := req_bits_pos m.cache_mask
  have h2 : (1:Nat) ≤ max_log_size := by rw [max_log_size]; omega
  rw [updK]
  omega

theorem updL1_le (m : vtblmap) : updL1 m ≤ max_log_size := by
  rw [updL1, lowerMiss]
  omega

theorem updL2_le (m : vtblmap) : updL2 m ≤ max_log_size := by
  rw [updL2]
  omega

theorem updApply_inv {m : vtblmap} {v : Nat} (s : ScanState) (hI : Inv m)
    (hf : tableFind m.table v = none) (hcoll : 1 ≤ s.coll)
    (hno1 : 1 ≤ s.no) (hno2 : s.no ≤ max_log_size) :
    Inv (updApply m v s).1 := by
  obtain ⟨hmask, hlen, hnodup, _, hlast, _⟩ := hI
  have hvmem : v ∉ keysOf m.table := keyFind_none_iff.1 hf
  obtain ⟨hpowk, hkle⟩ := maskOK_req_bits hmask
  have hmask1 : maskOK (if updK m < s.no then 2 ^ s.no - 1 else m.cache_mask) := by
    by_cases hk : updK m < s.no
    · rw [if_pos hk]
      exact maskOK_iff.2 ⟨s.no, hno1, hno2, rfl⟩
    · rw [if_neg hk]
      exact hmask
  have hlen1 : (if updK m < s.no then 2 ^ s.no else 2 ^ updK m)
      = (if updK m < s.no then 2 ^ s.no - 1 else m.cache_mask) + 1 := by
    by_cases hk : updK m < s.no
    · rw [if_pos hk, if_pos hk]
      have : 1 ≤ 2 ^ s.no := Nat.one_le_two_pow
      omega
    · rw [if_neg hk, if_neg hk, updK, hpowk]
  have hkeys1 : keysOf (updApply m v s).1.table = keysOf m.table ++ [v] := by
    show keysOf (bumpHits (m.table ++ [⟨v, 0, 0⟩]) m.table.length) = _
    rw [keysOf_bumpHits, keysOf_append]
  have hnodup1 : (keysOf m.table ++ [v]).Nodup := nodup_snoc hnodup hvmem
  have hcache : (updApply m v s).1.cache
      = rebuildAux (m.table ++ [⟨v, 0, 0⟩]) 0 s.zo
          (if updK m < s.no then 2 ^ s.no - 1 else m.cache_mask)
          (List.replicate (if updK m < s.no then 2 ^ s.no else 2 ^ updK m)
            emptyEntry) := rfl
  refine ⟨hmask1, ?_, ?_, hcoll, ?_, ?_⟩
  · rw [hcache, rebuildAux_length, List.length_replicate, hlen1]
    rfl
  · rw [hkeys1]
    exact hnodup1
  · show updSize m ≤ (bumpHits (m.table ++ [⟨v, 0, 0⟩]) m.table.length).length
    rw [bumpHits_length, List.length_append, updSize]
    simp
  · intro j hj
    rw [hcache] at hj ⊢
    have hspec := rebuildAux_spec (m.table ++ [⟨v, 0, 0⟩]) s.zo
      (if updK m < s.no then 2 ^ s.no - 1 else m.cache_mask)
      (m.table ++ [⟨v, 0, 0⟩]) 0
      (List.replicate (if updK m < s.no then 2 ^ s.no else 2 ^ updK m) emptyEntry)
      (fun p e hp => by simpa using hp)
      (fun i hi => by
        rw [List.length_replicate] at hi
        rw [getD_eq_get?, get?_replicate _ _ _ hi]
        exact Or.inl rfl)
      j hj
    rcases hspec with hz | ⟨p, e, hgp, hkey, hptr, hbuck⟩
    · exact Or.inl hz
    · refine Or.inr ⟨by rw [hptr]; simp, ?_, ?_⟩
      · show tableFind (updApply m v s).1.table _ = _
        rw [hptr, tableFind, hkeys1]
        have hkp : (keysOf m.table ++ [v]).get? p = some e.key := by
          have h0 := keysOf_get? (m.table ++ [⟨v, 0, 0⟩]) p
          rw [hgp] at h0
          rw [keysOf_append] at h0
          exact h0
        rw [hkey] at hkp
        exact keyFind_of_get?_nodup hnodup1 hkp
      · exact hbuck

theorem update_inv (E : List Nat → Int) {m : vtblmap} {v : Nat} (hI : Inv m)
    (hf : tableFind m.table v = none) :
    Inv (update E m v).1 := by
  refine updApply_inv _ hI hf ?_ ?_ ?_
  · show 1 ≤ (scanAll E (updKeys m v) (updSize m) (initScan m v)
        (updCands m v)).coll
    rcases scan_coll_cases E (updKeys m v) (updSize m) (updCands m v)
      (initScan m v) with h | h
    · rw [h]; norm_num [initScan]
    · rw [h]
  · exact (scan_pair_prop E _ _ (fun no _ => 1 ≤ no ∧ no ≤ max_log_size) _ _
      ⟨updL1_pos m, updL1_le m⟩
      (fun c hc => by
        have hb := mem_candidateList hc
        have h1 := updL1_pos m
        have h2 := updL2_le m
        exact ⟨by omega, by omega⟩)).1
  · exact (scan_pair_prop E _ _ (fun no _ => 1 ≤ no ∧ no ≤ max_log_size) _ _
      ⟨updL1_pos m, updL1_le m⟩
      (fun c hc => by
        have hb := mem_candidateList hc
        have h1 := updL1_pos m
        have h2 := updL2_le m
        exact ⟨by omega, by omega⟩)).2

theorem update_addr (E : List Nat → Int) {m : vtblmap} {v : Nat}
    (hf : tableFind m.table v = none) :
    tableFind (update E m v).1.table v = some (update E m v).2 := by
  show tableFind (bumpHits (m.table ++ [⟨v, 0, 0⟩]) m.table.length) v
      = some m.table.length
  rw [tableFind, keysOf_bumpHits, keysOf_append, ← keysOf_length]
  exact keyFind_append_self hf

theorem slotClause_congr {m m' : vtblmap} {i : Nat} {ce : CacheEntry}
    (h : slotClause m i ce)
    (hmask : m'.cache_mask = m.cache_mask)
    (hshift : m'.optimal_shift = m.optimal_shift)
    (hkeys : keysOf m'.table = keysOf m.table) : slotClause m' i ce := by
  rcases h with hz | ⟨hptr, hfind, hidx⟩
  · exact Or.inl hz
  · refine Or.inr ⟨hptr, ?_, ?_⟩
    · show tableFind m'.table ce.vtbl = ce.ptr
      rw [tableFind, hkeys]
      exact hfind
    · show i = slotIdx m' ce.vtbl
      rw [slotIdx, bucketOf, hmask, hshift]
      exact hidx

/-- Bumping a hit counter preserves the invariant. -/
theorem bump_table_inv {m : vtblmap} (a : Nat) (hI : Inv m) :
    Inv { m with table := bumpHits m.table a } := by
  obtain ⟨hmask, hlen, hnodup, hcoll, hlast, hslots⟩ := hI
  refine ⟨hmask, hlen, ?_, hcoll, ?_, ?_⟩
  · show (keysOf (bumpHits m.table a)).Nodup
    rw [keysOf_bumpHits]
    exact hnodup
  · show m.last_table_size ≤ (bumpHits m.table a).length
    rw [bumpHits_length]
    exact hlast
  · intro j hj
    exact slotClause_congr (hslots j hj) rfl rfl (keysOf_bumpHits _ _)

theorem insertFresh_keys (m : vtblmap) (v i : Nat) (coll : Int) :
    keysOf (insertFresh m v i coll).1.table = keysOf m.table ++ [v] := by
  show keysOf (bumpHits (m.table ++ [⟨v, 0, 0⟩]) m.table.length) = _
  rw [keysOf_bumpHits, keysOf_append]

theorem insertFresh_addr {m : vtblmap} {v : Nat} (i : Nat) (coll : Int)
    (hf : tableFind m.table v = none) :
    tableFind (insertFresh m v i coll).1.table v
      = some (insertFresh m v i coll).2 := by
  show tableFind (bumpHits (m.table ++ [⟨v, 0, 0⟩]) m.table.length) v
      = some m.table.length
  rw [tableFind, keysOf_bumpHits, keysOf_append, ← keysOf_length]
  exact keyFind_append_self hf

theorem update_keys (E : List Nat → Int) (m : vtblmap) (v : Nat) :
    keysOf (update E m v).1.table = keysOf m.table ++ [v] := by
  show keysOf (bumpHits (m.table ++ [⟨v, 0, 0⟩]) m.table.length) = _
  rw [keysOf_bumpHits, keysOf_append]

theorem set_slot_inv {m : vtblmap} {v a : Nat} (hI : Inv m)
    (hfind : tableFind m.table v = some a) :
    Inv { m with cache := m.cache.set (slotIdx m v) ⟨v, some a⟩,
                 table := bumpHits m.table a } := by
  obtain ⟨hmask, hlen, hnodup, hcoll, hlast, hslots⟩ := hI
  have hkeys : keysOf (bumpHits m.table a) = keysOf m.table := keysOf_bumpHits _ _
  refine ⟨hmask, ?_, ?_, hcoll, ?_, ?_⟩
  · show (m.cache.set (slotIdx m v) ⟨v, some a⟩).length = m.cache_mask + 1
    rw [List.length_set]
    exact hlen
  · show (keysOf (bumpHits m.table a)).Nodup
    rw [hkeys]
    exact hnodup
  · show m.last_table_size ≤ (bumpHits m.table a).length
    rw [bumpHits_length]
    exact hlast
  · intro j hj
    have hj' : j < m.cache.length := by simpa using hj
    by_cases hji : j = slotIdx m v
    · subst hji
      show slotClause _ _ ((m.cache.set (slotIdx m v) ⟨v, some a⟩).getD _ emptyEntry)
      rw [getD_eq_get?, get?_set_self _ _ _ hj']
      refine Or.inr ⟨by simp, ?_, rfl⟩
      show tableFind (bumpHits m.table a) v = some a
      rw [tableFind, hkeys]
      exact hfind
    · show slotClause _ _ ((m.cache.set (slotIdx m v) ⟨v, some a⟩).getD j emptyEntry)
      rw [getD_eq_get?, get?_set_ne _ _ _ _ hji, ← getD_eq_get?]
      exact slotClause_congr (hslots j hj') rfl rfl hkeys

/-- Invariant preservation together with the address contract of `get`:
the returned address is where the table stores the requested identity. -/
theorem get_step (E : List Nat → Int) {m : vtblmap} {v : Nat} (hI : Inv m)
    (hv : v ≠ 0) :
    Inv (get E m v).1 ∧ tableFind (get E m v).1.table v = some (get E m v).2 := by
  obtain ⟨hmask, hlen, hnodup, hcoll, hlast, hslots⟩ := hI
  have hI' : Inv m := ⟨hmask, hlen, hnodup, hcoll, hlast, hslots⟩
  by_cases hhit : (cacheAt m v).vtbl = v
  · -- cache hit
    have hclause := hslots (slotIdx m v) (slotIdx_lt hlen v)
    rw [show m.cache.getD (slotIdx m v) emptyEntry = cacheAt m v from rfl] at hclause
    rcases hclause with hz | ⟨hptr, hfind, _⟩
    · exact absurd (hz ▸ hhit).symm hv
    · rw [hhit] at hfind
      cases hp : (cacheAt m v).ptr with
      | none => exact absurd hp hptr
      | some p =>
          rw [hp] at hfind
          rw [get_hit E m v hhit, hp]
          constructor
          · exact bump_table_inv p hI'
          · show tableFind (bumpHits m.table p) v = some p
            rw [tableFind, keysOf_bumpHits]
            exact hfind
  · cases hfind : tableFind m.table v with
    | some a =>
        rw [get_found E m v a hhit hfind]
        refine ⟨set_slot_inv hI' hfind, ?_⟩
        show tableFind (bumpHits m.table a) v = some a
        rw [tableFind, keysOf_bumpHits]
        exact hfind
    | none =>
        by_cases hc : (cacheAt m v).vtbl ≠ 0 ∧ m.table.length ≠ m.last_table_size
        · by_cases hb : m.collisions_before_update - 1 = 0
          · rw [get_miss_update E m v hhit hfind hc hb]
            exact ⟨update_inv E hI' hfind, update_addr E hfind⟩
          · rw [get_miss_tolerate E m v hhit hfind hc hb]
            refine ⟨insertFresh_inv _ hI' hfind (by omega), ?_⟩
            exact insertFresh_addr _ _ hfind
        · rw [get_miss_cold E m v hhit hfind hc]
          exact ⟨insertFresh_inv _ hI' hfind hcoll, insertFresh_addr _ _ hfind⟩

theorem get_inv (E : List Nat → Int) {m : vtblmap} {v : Nat} (hI : Inv m)
    (hv : v ≠ 0) : Inv (get E m v).1 :=
  (get_step E hI hv).1

theorem get_addr (E : List Nat → Int) {m : vtblmap} {v : Nat} (hI : Inv m)
    (hv : v ≠ 0) : tableFind (get E m v).1.table v = some (get E m v).2 :=
  (get_step E hI hv).2

/-- Each `get` either leaves the key sequence of the table unchanged or
appends exactly the requested identity; nothing is ever removed. -/
theorem get_keys (E : List Nat → Int) (m : vtblmap) (v : Nat) :
    keysOf (get E m v).1.table = keysOf m.table ∨
    keysOf (get E m v).1.table = keysOf m.table ++ [v] := by
  by_cases hhit : (cacheAt m v).vtbl = v
  · rw [get_hit E m v hhit]
    exact Or.inl (keysOf_bumpHits _ _)
  · cases hfind : tableFind m.table v with
    | some a =>
        rw [get_found E m v a hhit hfind]
        exact Or.inl (keysOf_bumpHits _ _)
    | none =>
        by_cases hc : (cacheAt m v).vtbl ≠ 0 ∧ m.table.length ≠ m.last_table_size
        · by_cases hb : m.collisions_before_update - 1 = 0
          · rw [get_miss_update E m v hhit hfind hc hb]
            exact Or.inr (update_keys E m v)
          · rw [get_miss_tolerate E m v hhit hfind hc hb]
            exact Or.inr (insertFresh_keys m v _ _)
        · rw [get_miss_cold E m v hhit hfind hc]
          exact Or.inr (insertFresh_keys m v _ _)

/-! ### Sequences of `get` calls -/

theorem runGets_nil (E : List Nat → Int) (m : vtblmap) : runGets E m [] = m := rfl

theorem runGets_cons (E : List Nat → Int) (m : vtblmap) (v : Nat) (vs : List Nat) :
    runGets E m (v :: vs) = runGets E (get E m v).1 vs := rfl

theorem runTrace_cons (E : List Nat → Int) (m : vtblmap) (v : Nat) (vs : List Nat) :
    runTrace E m (v :: vs) = (get E m v).2 :: runTrace E (get E m v).1 vs := rfl

theorem runGets_inv (E : List Nat → Int) :
    ∀ (ids : List Nat) (m : vtblmap), Inv m → (∀ v ∈ ids, v ≠ 0) →
      Inv (runGets E m ids) := by
  intro ids
  induction ids with
  | nil => intro m hI _; exact hI
  | cons v vs ih =>
      intro m hI hids
      rw [runGets_cons]
      exact ih _ (get_inv E hI (hids v (by simp)))
        (fun w hw => hids w (by simp [hw]))

theorem runGets_keys_ext (E : List Nat → Int) :
    ∀ (ids : List Nat) (m : vtblmap),
      ∃ ext, keysOf (runGets E m ids).table = keysOf m.table ++ ext := by
  intro ids
  induction ids with
  | nil => intro m; exact ⟨[], by simp [runGets_nil]⟩
  | cons v vs ih =>
      intro m
      rw [runGets_cons]
      rcases ih (get E m v).1 with ⟨ext, hext⟩
      rcases get_keys E m v with h | h
      · exact ⟨ext, by rw [hext, h]⟩
      · exact ⟨[v] ++ ext, by rw [hext, h, List.append_assoc]⟩

theorem runGets_length_mono (E : List Nat → Int) (ids : List Nat) (m : vtblmap) :
    m.table.length ≤ (runGets E m ids).table.length := by
  rcases runGets_keys_ext E ids m with ⟨ext, hext⟩
  have h1 : (keysOf (runGets E m ids).table).length
      = (keysOf m.table).length + ext.length := by
    rw [hext, List.length_append]
  rw [keysOf_length, keysOf_length] at h1
  omega

/-- The address handed out for the n-th call is where the final table stores
the n-th identity. -/
theorem runTrace_spec (E : List Nat → Int) :
    ∀ (ids : List Nat) (m : vtblmap), Inv m → (∀ v ∈ ids, v ≠ 0) →
      ∀ n v a, ids.get? n = some v → (runTrace E m ids).get? n = some a →
        keyFind (keysOf (runGets E m ids).table) v = some a := by
  intro ids
  induction ids with
  | nil => intro m _ _ n v a hv; simp at hv
  | cons w ws ih =>
      intro m hI hids n v a hv ha
      cases n with
      | zero =>
          have hv' : w = v := by simpa using hv
          have ha' : (get E m w).2 = a := by
            rw [runTrace_cons] at ha
            simpa using ha
          subst hv'
          subst ha'
          have h1 := get_addr E hI (hids w (by simp))
          rw [tableFind] at h1
          rcases runGets_keys_ext E ws (get E m w).1 with ⟨ext, hext⟩
          rw [runGets_cons, hext]
          exact keyFind_append_left ext h1
      | succ n =>
          have hv' : ws.get? n = some v := hv
          have ha' : (runTrace E (get E m w).1 ws).get? n = some a := by
            rw [runTrace_cons] at ha
            simpa using ha
          rw [runGets_cons]
          exact ih (get E m w).1 (get_inv E hI (hids w (by simp)))
            (fun u hu => hids u (by simp [hu])) n v a hv' ha'

/-! ### Entries already handed out are never moved or modified -/

theorem get?_append_left {α : Type} (l1 l2 : List α) (a : Nat) (h : a < l1.length) :
    (l1 ++ l2).get? a = l1.get? a := by
  induction l1 generalizing a with
  | nil => simp at h
  | cons x l ih =>
      cases a with
      | zero => rfl
      | succ a => simpa using ih a (by simpa using h)

theorem get?_lt_length {α : Type} {l : List α} {a : Nat} {x : α}
    (h : l.get? a = some x) : a < l.length := by
  induction l generalizing a with
  | nil => simp at h
  | cons y l ih =>
      cases a with
      | zero => simp
      | succ a =>
          have := ih (a := a) h
          simp
          omega

/-- A single `get` for a different identity leaves any existing table entry
exactly in place, with its stored value and hit count unchanged. -/
theorem get_untouched (E : List Nat → Int) {m : vtblmap} {v a : Nat}
    {e : TableEntry} (hI : Inv m) (hv : v ≠ 0) (hne : v ≠ e.key)
    (h : m.table.get? a = some e) :
    (get E m v).1.table.get? a = some e := by
  obtain ⟨hmask, hlen, hnodup, hcoll, hlast, hslots⟩ := hI
  have hI' : Inv m := ⟨hmask, hlen, hnodup, hcoll, hlast, hslots⟩
  have halt : a < m.table.length := get?_lt_length h
  have hbump : ∀ p, tableFind m.table v = some p →
      (bumpHits m.table p).get? a = some e := by
    intro p hp
    rcases tableFind_entry hp with ⟨f, hf, hfk⟩
    have hpa : a ≠ p := by
      intro hap
      subst hap
      rw [h] at hf
      have : e = f := by injection hf
      exact hne (by rw [this, hfk])
    rw [bumpHits_get?_ne _ _ _ hpa]
    exact h
  have hfreshcase : ∀ coll i,
      (insertFresh m v i coll).1.table.get? a = some e := by
    intro coll i
    show (bumpHits (m.table ++ [⟨v, 0, 0⟩]) m.table.length).get? a = some e
    rw [bumpHits_get?_ne _ _ _ (by omega), get?_append_left _ _ _ halt]
    exact h
  by_cases hhit : (cacheAt m v).vtbl = v
  · have hclause := hslots (slotIdx m v) (slotIdx_lt hlen v)
    rw [show m.cache.getD (slotIdx m v) emptyEntry = cacheAt m v from rfl] at hclause
    rcases hclause with hz | ⟨hptr, hfind, _⟩
    · exact absurd (hz ▸ hhit).symm hv
    · rw [hhit] at hfind
      cases hp : (cacheAt m v).ptr with
      | none => exact absurd hp hptr
      | some p =>
          rw [hp] at hfind
          rw [get_hit E m v hhit, hp]
          exact hbump p hfind
  · cases hfind : tableFind m.table v with
    | some b =>
        rw [get_found E m v b hhit hfind]
        exact hbump b hfind
    | none =>
        by_cases hc : (cacheAt m v).vtbl ≠ 0 ∧ m.table.length ≠ m.last_table_size
        · by_cases hb : m.collisions_before_update - 1 = 0
          · rw [get_miss_update E m v hhit hfind hc hb]
            show (bumpHits (m.table ++ [⟨v, 0, 0⟩]) m.table.length).get? a = some e
            rw [bumpHits_get?_ne _ _ _ (by omega), get?_append_left _ _ _ halt]
            exact h
          · rw [get_miss_tolerate E m v hhit hfind hc hb]
            exact hfreshcase _ _
        · rw [get_miss_cold E m v hhit hfind hc]
          exact hfreshcase _ _

theorem runGets_untouched (E : List Nat → Int) :
    ∀ (ids : List Nat) (m : vtblmap) (a : Nat) (e : TableEntry), Inv m →
      (∀ v ∈ ids, v ≠ 0 ∧ v ≠ e.key) → m.table.get? a = some e →
      (runGets E m ids).table.get? a = some e := by
  intro ids
  induction ids with
  | nil => intro m a e _ _ h; exact h
  | cons v vs ih =>
      intro m a e hI hids h
      rw [runGets_cons]
      exact ih (get E m v).1 a e (get_inv E hI (hids v (by simp)).1)
        (fun u hu => hids u (by simp [hu]))
        (get_untouched E hI (hids v (by simp)).1 (hids v (by simp)).2 h)

/-! ### Cache-hit runs over a perfectly arranged cache -/

theorem get_perfect_fields (E : List Nat → Int) {m : vtblmap} {v : Nat}
    (hmem : v ∈ keysOf m.table) (hP : PerfectCache m) :
    (get E m v).1.cache = m.cache ∧
    (get E m v).1.cache_mask = m.cache_mask ∧
    (get E m v).1.optimal_shift = m.optimal_shift ∧
    (get E m v).1.last_table_size = m.last_table_size ∧
    (get E m v).1.collisions_before_update = m.collisions_before_update ∧
    keysOf (get E m v).1.table = keysOf m.table := by
  have hhit : (cacheAt m v).vtbl = v := hP v hmem
  rw [get_hit E m v hhit]
  exact ⟨rfl, rfl, rfl, rfl, rfl, keysOf_bumpHits _ _⟩

theorem runGets_perfect (E : List Nat → Int) :
    ∀ (ids : List Nat) (m : vtblmap), PerfectCache m →
      (∀ v ∈ ids, v ∈ keysOf m.table) →
      (runGets E m ids).cache = m.cache ∧
      (runGets E m ids).cache_mask = m.cache_mask ∧
      (runGets E m ids).optimal_shift = m.optimal_shift ∧
      (runGets E m ids).last_table_size = m.last_table_size ∧
      (runGets E m ids).collisions_before_update = m.collisions_before_update ∧
      keysOf (runGets E m ids).table = keysOf m.table := by
  intro ids
  induction ids with
  | nil => intro m _ _; exact ⟨rfl, rfl, rfl, rfl, rfl, rfl⟩
  | cons v vs ih =>
      intro m hP hids
      obtain ⟨hc, hm, hs, hl, hb, hk⟩ :=
        get_perfect_fields E (hids v (by simp)) hP
      have hP' : PerfectCache (get E m v).1 := by
        intro u hu
        rw [hk] at hu
        show ((get E m v).1.cache.getD (slotIdx (get E m v).1 u) emptyEntry).vtbl = u
        rw [hc, show slotIdx (get E m v).1 u = slotIdx m u from by
          rw [slotIdx, slotIdx, hm, hs]]
        exact hP u hu
      have hids' : ∀ u ∈ vs, u ∈ keysOf (get E m v).1.table := by
        intro u hu
        rw [hk]
        exact hids u (by simp [hu])
      obtain ⟨ihc, ihm, ihs, ihl, ihb, ihk⟩ := ih (get E m v).1 hP' hids'
      rw [runGets_cons]
      exact ⟨by rw [ihc, hc], by rw [ihm, hm], by rw [ihs, hs],
        by rw [ihl, hl], by rw [ihb, hb], by rw [ihk, hk]⟩

/-! ### Structure of the scan: short-circuit and selection order -/

theorem scanStep_done (E : List Nat → Int) (ks : List Nat) (size : Nat)
    {s : ScanState} (hd : s.done = true) (c : Nat × Nat) :
    scanStep E ks size s c = s := by
  rw [scanStep, if_pos hd]

theorem scanAll_of_done (E : List Nat → Int) (ks : List Nat) (size : Nat) :
    ∀ (cs : List (Nat × Nat)) {s : ScanState}, s.done = true →
      scanAll E ks size s cs = s := by
  intro cs
  induction cs with
  | nil => intro s _; rfl
  | cons c cs ih =>
      intro s hd
      rw [scanAll, List.foldl_cons, ← scanAll, scanStep_done E ks size hd]
      exact ih hd

theorem scanStep_zc (E : List Nat → Int) (ks : List Nat) (size : Nat)
    {s : ScanState} (hd : s.done = false) {c : Nat × Nat}
    (hzc : occupied (histFor ks c.1 c.2) = size) :
    (scanStep E ks size s c).done = true ∧ (scanStep E ks size s c).coll = 1 := by
  rw [scanStep, if_neg (by rw [hd]; exact Bool.false_ne_true), if_pos hzc]
  by_cases he : s.e_max < E (histFor ks c.1 c.2)
  · rw [if_pos he]; exact ⟨rfl, rfl⟩
  · rw [if_neg he]; exact ⟨rfl, rfl⟩

theorem scanStep_nzc (E : List Nat → Int) (ks : List Nat) (size : Nat)
    {s : ScanState} (hd : s.done = false) {c : Nat × Nat}
    (hnzc : occupied (histFor ks c.1 c.2) ≠ size) :
    (scanStep E ks size s c).done = false ∧
    (scanStep E ks size s c).coll = s.coll := by
  rw [scanStep, if_neg (by rw [hd]; exact Bool.false_ne_true), if_neg hnzc]
  by_cases he : s.e_max < E (histFor ks c.1 c.2)
  · rw [if_pos he]; exact ⟨hd, rfl⟩
  · rw [if_neg he]; exact ⟨hd, rfl⟩

/-- The fold over all candidates equals the fold over the examined prefix:
everything after the first zero-collision candidate is skipped. -/
theorem scan_cut (E : List Nat → Int) (ks : List Nat) (size : Nat) :
    ∀ (cs : List (Nat × Nat)) (s : ScanState), s.done = false →
      scanAll E ks size s cs = scanAll E ks size s (examinedFrom ks size cs) := by
  intro cs
  induction cs with
  | nil => intro s _; rfl
  | cons c cs ih =>
      intro s hd
      by_cases hzc : occupied (histFor ks c.1 c.2) = size
      · rw [examinedFrom, if_pos hzc]
        rw [scanAll, List.foldl_cons, ← scanAll]
        exact scanAll_of_done E ks size cs (scanStep_zc E ks size hd hzc).1
      · rw [examinedFrom, if_neg hzc]
        show scanAll E ks size (scanStep E ks size s c) cs
            = scanAll E ks size (scanStep E ks size s c) (examinedFrom ks size cs)
        exact ih _ (scanStep_nzc E ks size hd hzc).1

theorem examinedFrom_prefix (ks : List Nat) (size : Nat) :
    ∀ (cs : List (Nat × Nat)), ∃ rest, cs = examinedFrom ks size cs ++ rest := by
  intro cs
  induction cs with
  | nil => exact ⟨[], rfl⟩
  | cons c cs ih =>
      by_cases hzc : occupied (histFor ks c.1 c.2) = size
      · rw [examinedFrom, if_pos hzc]
        exact ⟨cs, rfl⟩
      · rw [examinedFrom, if_neg hzc]
        rcases ih with ⟨rest, hrest⟩
        exact ⟨rest, by rw [List.cons_append, ← hrest]⟩

theorem examinedFrom_dropLast (ks : List Nat) (size : Nat) :
    ∀ (cs : List (Nat × Nat)), ∀ c ∈ (examinedFrom ks size cs).dropLast,
      occupied (histFor ks c.1 c.2) ≠ size := by
  intro cs
  induction cs with
  | nil => intro c hc; simp [examinedFrom] at hc
  | cons d cs ih =>
      intro c hc
      by_cases hzc : occupied (histFor ks d.1 d.2) = size
      · rw [examinedFrom, if_pos hzc] at hc
        simp at hc
      · rw [examinedFrom, if_neg hzc] at hc
        cases hex : examinedFrom ks size cs with
        | nil =>
            rw [hex] at hc
            simp at hc
        | cons x xs =>
            rw [hex, List.dropLast_cons₂, List.mem_cons] at hc
            rcases hc with rfl | hc
            · exact hzc
            · refine ih c ?_
              rw [hex]
              exact hc

theorem examinedFrom_get?0 (ks : List Nat) (size : Nat) (c : Nat × Nat)
    (cs : List (Nat × Nat)) :
    (examinedFrom ks size (c :: cs)).get? 0 = some c := by
  by_cases hzc : occupied (histFor ks c.1 c.2) = size
  · rw [examinedFrom, if_pos hzc]; rfl
  · rw [examinedFrom, if_neg hzc]; rfl

/-- Characterization of the collision budget installed by the scan: 1 when a
zero-collision candidate was examined, the incoming value otherwise. -/
theorem scan_coll_char (E : List Nat → Int) (ks : List Nat) (size : Nat) :
    ∀ (cs : List (Nat × Nat)) (s : ScanState), s.done = false →
      (scanAll E ks size s cs).coll =
        if (examinedFrom ks size cs).any
            (fun c => occupied (histFor ks c.1 c.2) == size) then 1
        else s.coll := by
  intro cs
  induction cs with
  | nil => intro s _; rfl
  | cons c cs ih =>
      intro s hd
      by_cases hzc : occupied (histFor ks c.1 c.2) = size
      · rw [examinedFrom, if_pos hzc]
        have hany : (([c] : List (Nat × Nat)).any
            (fun c => occupied (histFor ks c.1 c.2) == size)) = true := by
          simp [hzc]
        rw [hany, if_pos rfl]
        rw [scanAll, List.foldl_cons, ← scanAll,
          scanAll_of_done E ks size cs (scanStep_zc E ks size hd hzc).1]
        exact (scanStep_zc E ks size hd hzc).2
      · rw [examinedFrom, if_neg hzc]
        rw [scanAll, List.foldl_cons, ← scanAll]
        rw [ih _ (scanStep_nzc E ks size hd hzc).1]
        have hhead : ((c :: examinedFrom ks size cs).any
              (fun c => occupied (histFor ks c.1 c.2) == size))
            = ((examinedFrom ks size cs).any
              (fun c => occupied (histFor ks c.1 c.2) == size)) := by
          simp [hzc]
        rw [hhead, (scanStep_nzc E ks size hd hzc).2]

/-- Selection behaviour of the scan for an arbitrary nonnegative entropy
functional: the running maximum dominates every examined candidate, the
final `(no, zo)` carries entropy at least that maximum, and the adopted
candidate (when the initial pair was abandoned) is the first one to reach
the final maximum — every earlier candidate has strictly smaller entropy.
This is the `e > e_max` strict-inequality adoption of vtblmap3.hpp line 550:
ties keep the earlier candidate. -/
theorem scan_sel (E : List Nat → Int) (ks : List Nat) (size : Nat)
    (hE : ∀ h, 0 ≤ E h) :
    ∀ (cs : List (Nat × Nat)) (s : ScanState), s.done = false →
      (∀ c ∈ cs.dropLast, occupied (histFor ks c.1 c.2) ≠ size) →
      0 ≤ s.e_max → s.e_max ≤ E (histFor ks s.no s.zo) →
      (∀ c ∈ cs, E (histFor ks c.1 c.2) ≤ (scanAll E ks size s cs).e_max) ∧
      s.e_max ≤ (scanAll E ks size s cs).e_max ∧
      (scanAll E ks size s cs).e_max
        ≤ E (histFor ks (scanAll E ks size s cs).no (scanAll E ks size s cs).zo) ∧
      (((scanAll E ks size s cs).no = s.no ∧ (scanAll E ks size s cs).zo = s.zo ∧
          (scanAll E ks size s cs).e_max = s.e_max) ∨
        (∃ n c, cs.get? n = some c ∧ (scanAll E ks size s cs).no = c.1 ∧
          (scanAll E ks size s cs).zo = c.2 ∧
          (scanAll E ks size s cs).e_max = E (histFor ks c.1 c.2) ∧
          s.e_max < E (histFor ks c.1 c.2) ∧
          (∀ k c', k < n → cs.get? k = some c' →
            E (histFor ks c'.1 c'.2) < E (histFor ks c.1 c.2)))) := by
  intro cs
  induction cs with
  | nil =>
      intro s _ _ _ hub
      exact ⟨by simp, le_refl _, hub, Or.inl ⟨rfl, rfl, rfl⟩⟩
  | cons c cs ih =>
      intro s hd hdrop h0 hub
      have hdfalse : ¬s.done = true := by rw [hd]; exact Bool.false_ne_true
      by_cases hzc : occupied (histFor ks c.1 c.2) = size
      · have hcs : cs = [] := by
          cases cs with
          | nil => rfl
          | cons d ds =>
              exact absurd hzc (hdrop c (by rw [List.dropLast_cons₂]; simp))
        subst hcs
        by_cases he : s.e_max < E (histFor ks c.1 c.2)
        · have hstep : scanAll E ks size s [c]
              = { s with e_max := E (histFor ks c.1 c.2), no := c.1, zo := c.2,
                         coll := 1, done := true } := by
            show scanStep E ks size s c = _
            rw [scanStep, if_neg hdfalse, if_pos hzc, if_pos he]
          rw [hstep]
          refine ⟨?_, le_of_lt he, le_refl _,
            Or.inr ⟨0, c, rfl, rfl, rfl, rfl, he, ?_⟩⟩
          · intro x hx
            rw [List.mem_singleton] at hx
            subst hx
            exact le_refl _
          · intro k c' hk _
            exact absurd hk (Nat.not_lt_zero k)
        · have hstep : scanAll E ks size s [c]
              = { s with coll := 1, done := true } := by
            show scanStep E ks size s c = _
            rw [scanStep, if_neg hdfalse, if_pos hzc, if_neg he]
          rw [hstep]
          refine ⟨?_, le_refl _, hub, Or.inl ⟨rfl, rfl, rfl⟩⟩
          intro x hx
          rw [List.mem_singleton] at hx
          subst hx
          exact not_lt.mp he
      · have hd1 := (scanStep_nzc E ks size hd hzc).1
        have hdrop' : ∀ x ∈ cs.dropLast, occupied (histFor ks x.1 x.2) ≠ size := by
          intro x hx
          refine hdrop x ?_
          cases cs with
          | nil => simp at hx
          | cons d ds =>
              rw [List.dropLast_cons₂]
              exact List.mem_cons_of_mem c hx
        have hfold : scanAll E ks size s (c :: cs)
            = scanAll E ks size (scanStep E ks size s c) cs := rfl
        by_cases he : s.e_max < E (histFor ks c.1 c.2)
        · have hstep : scanStep E ks size s c
              = { s with e_max := E (histFor ks c.1 c.2), no := c.1, zo := c.2 } := by
            rw [scanStep, if_neg hdfalse, if_neg hzc, if_pos he]
          obtain ⟨ih1, ih2, ih3, ih4⟩ := ih (scanStep E ks size s c) hd1 hdrop'
            (by rw [hstep]; exact hE _) (by rw [hstep]; try exact le_refl _)
          rw [hfold]
          have hs1e : (scanStep E ks size s c).e_max
              = E (histFor ks c.1 c.2) := by rw [hstep]
          refine ⟨?_, ?_, ih3, ?_⟩
          · intro x hx
            rcases List.mem_cons.1 hx with rfl | hx
            · rw [← hs1e]
              exact ih2
            · exact ih1 x hx
          · refine le_trans (le_of_lt he) ?_
            rw [← hs1e]
            exact ih2
          · rcases ih4 with ⟨hn, hz2, hemax⟩ | ⟨n, c1, hget, hno, hzo, hemax, hlt, hprev⟩
            · refine Or.inr ⟨0, c, rfl, ?_, ?_, ?_, he, ?_⟩
              · rw [hn, hstep]
              · rw [hz2, hstep]
              · rw [hemax, hstep]
              · intro k c' hk _
                exact absurd hk (Nat.not_lt_zero k)
            · rw [hs1e] at hlt
              refine Or.inr ⟨n + 1, c1, hget, hno, hzo, hemax, lt_trans he hlt, ?_⟩
              intro k c' hk hgetk
              cases k with
              | zero =>
                  have h00 : (c :: cs).get? 0 = some c := by simp
                  rw [h00] at hgetk
                  injection hgetk with hcc
                  subst hcc
                  exact hlt
              | succ k =>
                  exact hprev k c' (by omega) hgetk
        · have hstep : scanStep E ks size s c = s := by
            rw [scanStep, if_neg hdfalse, if_neg hzc, if_neg he]
          obtain ⟨ih1, ih2, ih3, ih4⟩ := ih (scanStep E ks size s c) hd1 hdrop'
            (by rw [hstep]; exact h0) (by rw [hstep]; try exact hub)
          rw [hfold]
          have hse : (scanStep E ks size s c).e_max = s.e_max := by rw [hstep]
          refine ⟨?_, ?_, ih3, ?_⟩
          · intro x hx
            rcases List.mem_cons.1 hx with rfl | hx
            · refine le_trans (not_lt.mp he) ?_
              rw [← hse]
              exact ih2
            · exact ih1 x hx
          · rw [← hse]
            exact ih2
          · rcases ih4 with ⟨hn, hz2, hemax⟩ | ⟨n, c1, hget, hno, hzo, hemax, hlt, hprev⟩
            · refine Or.inl ⟨?_, ?_, ?_⟩
              · rw [hn, hstep]
              · rw [hz2, hstep]
              · rw [hemax, hstep]
            · rw [hse] at hlt
              refine Or.inr ⟨n + 1, c1, hget, hno, hzo, hemax, hlt, ?_⟩
              intro k c' hk hgetk
              cases k with
              | zero =>
                  have h00 : (c :: cs).get? 0 = some c := by simp
                  rw [h00] at hgetk
                  injection hgetk with hcc
                  subst hcc
                  exact lt_of_le_of_lt (not_lt.mp he) hlt
              | succ k =>
                  exact hprev k c' (by omega) hgetk

/-! ### The first candidate of the scan is `(l1, z)` -/

theorem length_shiftRange (z mm i : Nat) :
    (shiftRange z mm i).length = if i ≤ mm then mm - i + 1 - z else 0 := by
  rw [shiftRange]
  by_cases hi : i ≤ mm
  · rw [if_pos hi, if_pos hi]
    exact List.length_range' _ _ _
  · rw [if_neg hi, if_neg hi]
    rfl

theorem shiftRange_eq_nil_iff (z mm i : Nat) :
    shiftRange z mm i = [] ↔ (mm < i ∨ mm - i + 1 ≤ z) := by
  rw [← List.length_eq_zero, length_shiftRange]
  by_cases hi : i ≤ mm
  · rw [if_pos hi]
    omega
  · rw [if_neg hi]
    omega

theorem shiftRange_empty_mono {z mm i1 i2 : Nat} (h12 : i1 ≤ i2)
    (h : shiftRange z mm i1 = []) : shiftRange z mm i2 = [] := by
  rw [shiftRange_eq_nil_iff] at h ⊢
  omega

theorem flatten_eq_nil {α : Type} :
    ∀ (L : List (List α)), (∀ l ∈ L, l = []) → L.flatten = [] := by
  intro L
  induction L with
  | nil => intro _; rfl
  | cons l L ih =>
      intro h
      rw [List.flatten_cons, h l (by simp), List.nil_append]
      exact ih (fun x hx => h x (by simp [hx]))

theorem candidateList_get?0 {l1 l2 z mm : Nat} (h : candidateList l1 l2 z mm ≠ []) :
    (candidateList l1 l2 z mm).get? 0 = some (l1, z) := by
  cases hcnt : l2 + 1 - l1 with
  | zero =>
      exfalso
      refine h ?_
      rw [candidateList, hcnt]
      rfl
  | succ n =>
      have hexp : candidateList l1 l2 z mm
          = (shiftRange z mm l1).map (fun j => (l1, j))
            ++ ((List.range' (l1+1) n).map
                (fun i => (shiftRange z mm i).map (fun j => (i, j)))).flatten := by
        rw [candidateList, hcnt, List.range'_succ, List.map_cons, List.flatten_cons]
      by_cases hg : shiftRange z mm l1 = []
      · exfalso
        refine h ?_
        rw [hexp, hg]
        rw [List.map_nil, List.nil_append]
        refine flatten_eq_nil _ ?_
        intro l hl
        rw [List.mem_map] at hl
        rcases hl with ⟨i, hi, rfl⟩
        rw [List.mem_range'_1] at hi
        rw [List.map_eq_nil_iff]
        exact shiftRange_empty_mono (by omega) hg
      · have hlen : 0 < (shiftRange z mm l1).length := by
          cases hsr : shiftRange z mm l1 with
          | nil => exact absurd hsr hg
          | cons x xs => simp
        rw [hexp, get?_append_left _ _ 0 (by simpa using hlen)]
        have hmap : ((shiftRange z mm l1).map
            (fun j => ((l1, j) : Nat × Nat))).get? 0
            = ((shiftRange z mm l1).get? 0).map (fun j => ((l1, j) : Nat × Nat)) := by
          cases shiftRange z mm l1 with
          | nil => rfl
          | cons x xs => rfl
        rw [hmap]
        have hz0 : (shiftRange z mm l1).get? 0 = some z := by
          have hle : l1 ≤ mm := by
            by_contra hlt
            exact hg ((shiftRange_eq_nil_iff z mm l1).2 (Or.inl (by omega)))
          rw [shiftRange, if_pos hle] at hg ⊢
          cases hc : mm - l1 + 1 - z with
          | zero => exact absurd (by rw [hc]; rfl) hg
          | succ k =>
              rw [List.range'_succ]
              rfl
        rw [hz0]
        rfl

/-- `get` on an identity absent from the table always inserts a fresh
default-constructed entry at the end of the table and returns its address —
on the plain-miss paths and on the rearrangement path alike. -/
theorem get_fresh (E : List Nat → Int) {m : vtblmap} {v : Nat} (hI : Inv m)
    (hv : v ≠ 0) (hf : tableFind m.table v = none) :
    (get E m v).2 = m.table.length ∧
    (get E m v).1.table = m.table ++ [⟨v, 0, 1⟩] := by
  obtain ⟨hmask, hlen, hnodup, hcoll, hlast, hslots⟩ := hI
  have hhit : (cacheAt m v).vtbl ≠ v := by
    intro hhit
    have hclause := hslots (slotIdx m v) (slotIdx_lt hlen v)
    rw [show m.cache.getD (slotIdx m v) emptyEntry = cacheAt m v from rfl]
      at hclause
    rcases hclause with hz | ⟨hptr, hfind, _⟩
    · exact hv (hz ▸ hhit).symm
    · rw [hhit, hf] at hfind
      cases hp : (cacheAt m v).ptr with
      | none => exact hptr hp
      | some p => rw [hp] at hfind; exact Option.noConfusion hfind
  have hresult : ∀ coll i, (insertFresh m v i coll).1.table
      = m.table ++ [⟨v, 0, 1⟩] := by
    intro coll i
    show bumpHits (m.table ++ [⟨v, 0, 0⟩]) m.table.length = _
    rw [bumpHits_append_last]
  by_cases hc : (cacheAt m v).vtbl ≠ 0 ∧ m.table.length ≠ m.last_table_size
  · by_cases hb : m.collisions_before_update - 1 = 0
    · rw [get_miss_update E m v hhit hf hc hb]
      refine ⟨rfl, ?_⟩
      show bumpHits (m.table ++ [⟨v, 0, 0⟩]) m.table.length = _
      rw [bumpHits_append_last]
    · rw [get_miss_tolerate E m v hhit hf hc hb]
      exact ⟨rfl, hresult _ _⟩
  · rw [get_miss_cold E m v hhit hf hc]
    exact ⟨rfl, hresult _ _⟩

/-! ### Bounds for the constructor -/

theorem log2fuel_ge_one {f n : Nat} (hn : 2 ≤ n) (hf : 1 ≤ f) :
    1 ≤ log2fuel f n := by
  cases f with
  | zero => omega
  | succ f =>
      rw [log2fuel, if_pos hn]
      omega

theorem log2fuel_ge_two {f n : Nat} (hn : 4 ≤ n) (hf : 2 ≤ f) :
    2 ≤ log2fuel f n := by
  cases f with
  | zero => omega
  | succ f =>
      rw [log2fuel, if_pos (by omega : 2 ≤ n)]
      have : 1 ≤ log2fuel f (n / 2) := log2fuel_ge_one (by omega) (by omega)
      omega

theorem req_bits_ge_three {v : Nat} (hv : 7 ≤ v) : 3 ≤ req_bits v := by
  rw [req_bits]
  have : 2 ≤ log2fuel v v := log2fuel_ge_two (by omega) (by omega)
  omega

theorem vtblmapInit_inv (es : Nat) : Inv (vtblmapInit es) := by
  refine ⟨?_, ?_, List.nodup_nil, le_refl 1, le_refl 0, ?_⟩
  · refine maskOK_iff.2 ⟨min max_log_size (req_bits (es - 1)), ?_, ?_, rfl⟩
    · have h1 := req_bits_pos (es - 1)
      have h2 : (1:Nat) ≤ max_log_size := by rw [max_log_size]; omega
      omega
    · exact min_le_left _ _
  · show (List.replicate (2 ^ min max_log_size (req_bits (es - 1)))
        emptyEntry).length = 2 ^ min max_log_size (req_bits (es - 1)) - 1 + 1
    rw [List.length_replicate]
    have : 1 ≤ 2 ^ min max_log_size (req_bits (es - 1)) := Nat.one_le_two_pow
    omega
  · intro i hi
    have hi' : i < (List.replicate (2 ^ min max_log_size (req_bits (es - 1)))
        emptyEntry).length := hi
    rw [List.length_replicate] at hi'
    show slotClause _ _ ((List.replicate (2 ^ min max_log_size (req_bits (es - 1)))
        emptyEntry).getD i emptyEntry)
    rw [getD_eq_get?, get?_replicate _ _ _ hi']
    exact Or.inl rfl

/-! ## The claims -/

/-- C1: correctness of the identity-to-value mapping.  Along any sequence of
`get` calls on a freshly constructed map with nonzero identities, two calls
with the same identity return a reference to the same stored value (the same
table address), and calls with distinct identities never return references
to the same stored value.  (This holds unconditionally — rearrangements
never invalidate it, because the cache only ever stores addresses of
entries of the never-moving table.) -/
theorem c1_mapping_correctness (E : List Nat → Int) (es : Nat) (ids : List Nat)
    (i j v1 v2 a1 a2 : Nat) (_hes : 1 ≤ es) (hids : ∀ v ∈ ids, v ≠ 0)
    (hv1 : ids.get? i = some v1) (hv2 : ids.get? j = some v2)
    (ha1 : (runTrace E (vtblmapInit es) ids).get? i = some a1)
    (ha2 : (runTrace E (vtblmapInit es) ids).get? j = some a2) :
    (v1 = v2 → a1 = a2) ∧ (v1 ≠ v2 → a1 ≠ a2) := by
  have h1 := runTrace_spec E ids (vtblmapInit es) (vtblmapInit_inv es) hids
    i v1 a1 hv1 ha1
  have h2 := runTrace_spec E ids (vtblmapInit es) (vtblmapInit_inv es) hids
    j v2 a2 hv2 ha2
  constructor
  · intro hv
    subst hv
    have := h1.symm.trans h2
    injection this
  · intro hv ha
    subst ha
    have g1 := keyFind_get? h1
    have g2 := keyFind_get? h2
    rw [g1] at g2
    injection g2 with g2
    exact hv g2

/-- C2: reference stability.  The address returned by `get` for an identity
keeps holding that identity's entry, unchanged, across any number of later
`get` calls with other (nonzero) identities — insertions and rearrangements
never move or modify it. -/
theorem c2_reference_stability (E : List Nat → Int) (m : vtblmap) (id : Nat)
    (ids : List Nat) (hI : Inv m) (hid : id ≠ 0)
    (hids : ∀ v ∈ ids, v ≠ 0 ∧ v ≠ id) :
    ∃ e : TableEntry, e.key = id ∧
      (get E m id).1.table.get? (get E m id).2 = some e ∧
      (runGets E (get E m id).1 ids).table.get? (get E m id).2 = some e := by
  have h1 := get_addr E hI hid
  rcases tableFind_entry h1 with ⟨e, he, hek⟩
  refine ⟨e, hek, he, ?_⟩
  refine runGets_untouched E ids (get E m id).1 (get E m id).2 e
    (get_inv E hI hid) ?_ he
  intro v hv
  exact ⟨(hids v hv).1, by rw [hek]; exact (hids v hv).2⟩

/-- C6: `get` never fails; an identity not present in the table gets a
fresh default-constructed entry appended (default payload 0; hit counter 1
after the access bump of the instrumented build), on the plain-miss paths
and on the rearrangement path alike, and the reference returned is to that
fresh entry. -/
theorem c6_total_insertion (E : List Nat → Int) (m : vtblmap) (v : Nat)
    (hI : Inv m) (hv : v ≠ 0) (hf : tableFind m.table v = none) :
    (get E m v).2 = m.table.length ∧
    (get E m v).1.table = m.table ++ [⟨v, 0, 1⟩] :=
  get_fresh E hI hv hf

/-- C9: monotonic table growth.  A single `get` either leaves the table's
key sequence unchanged or appends exactly the requested identity — nothing
is ever removed — and along any sequence of `get` calls the table size never
decreases. -/
theorem c9_monotonic_growth (E : List Nat → Int) (m : vtblmap) (v : Nat)
    (ids : List Nat) :
    ((keysOf (get E m v).1.table = keysOf m.table ∧
        (get E m v).1.table.length = m.table.length) ∨
      (keysOf (get E m v).1.table = keysOf m.table ++ [v] ∧
        (get E m v).1.table.length = m.table.length + 1)) ∧
    m.table.length ≤ (runGets E m ids).table.length := by
  constructor
  · rcases get_keys E m v with h | h
    · refine Or.inl ⟨h, ?_⟩
      rw [← keysOf_length, h, keysOf_length]
    · refine Or.inr ⟨h, ?_⟩
      rw [← keysOf_length, h, List.length_append, keysOf_length]
      rfl
  · exact runGets_length_mono E ids m

/-- C10: cache-slot consistency invariant.  After construction and any
sequence of `get` calls with nonzero identities, the map satisfies `Inv`:
in particular every cache slot is either empty (identity 0) or caches an
identity present in the table, pointing at that identity's stored entry,
in the slot the identity hashes to under the current shift and mask. -/
theorem c10_cache_slot_invariant (E : List Nat → Int) (es : Nat)
    (ids : List Nat) (_hes : 1 ≤ es) (hids : ∀ v ∈ ids, v ≠ 0) :
    Inv (runGets E (vtblmapInit es) ids) :=
  runGets_inv E ids (vtblmapInit es) (vtblmapInit_inv es) hids

/-- C3 (amended): the candidate the rearrangement scan adopts has entropy at
least that of every examined candidate, and it is the FIRST examined
candidate attaining that maximum — every candidate examined before it has
strictly smaller entropy.  Hence among equal-entropy candidates the one with
the SMALLER shift (the one examined first) is selected, not the larger one:
the adoption test at vtblmap3.hpp line 550 is the strict `e > e_max`.
Stated for every nonnegative entropy functional `E`. -/
theorem c3_entropy_selection (E : List Nat → Int) (m : vtblmap) (v : Nat)
    (hE : ∀ h : List Nat, 0 ≤ E h) :
    (∀ c ∈ updExamined m v,
        E (histFor (updKeys m v) c.1 c.2)
          ≤ E (histFor (updKeys m v) (updScan E m v).no (updScan E m v).zo)) ∧
    (updExamined m v ≠ [] →
      ∃ n c, (updExamined m v).get? n = some c ∧
        (updScan E m v).no = c.1 ∧ (updScan E m v).zo = c.2 ∧
        ∀ k c', k < n → (updExamined m v).get? k = some c' →
          E (histFor (updKeys m v) c'.1 c'.2)
            < E (histFor (updKeys m v) c.1 c.2)) := by
  have hcut : updScan E m v
      = scanAll E (updKeys m v) (updSize m) (initScan m v) (updExamined m v) :=
    scan_cut E (updKeys m v) (updSize m) (updCands m v) (initScan m v) rfl
  obtain ⟨P1, _, UB, DISJ⟩ := scan_sel E (updKeys m v) (updSize m) hE
    (updExamined m v) (initScan m v) rfl
    (examinedFrom_dropLast (updKeys m v) (updSize m) (updCands m v))
    (le_refl 0) (hE _)
  constructor
  · intro c hc
    rw [hcut]
    exact le_trans (P1 c hc) UB
  · intro hne
    rcases DISJ with ⟨hn, hz, _⟩ | ⟨n, c, hget, hno, hzo, _, _, hprev⟩
    · have hcands : updCands m v ≠ [] := by
        intro h0
        apply hne
        show examinedFrom (updKeys m v) (updSize m) (updCands m v) = []
        rw [h0]
        rfl
      cases hc0 : updCands m v with
      | nil => exact absurd hc0 hcands
      | cons c0 cs0 =>
          have h00 : (updCands m v).get? 0 = some (updL1 m, updZ m v) :=
            candidateList_get?0 hcands
          have hc0v : c0 = (updL1 m, updZ m v) := by
            rw [hc0] at h00
            have h00' : some c0 = some (updL1 m, updZ m v) := by simpa using h00
            injection h00'
          subst hc0v
          refine ⟨0, (updL1 m, updZ m v), ?_, ?_, ?_, ?_⟩
          · show (examinedFrom (updKeys m v) (updSize m)
                (updCands m v)).get? 0 = some (updL1 m, updZ m v)
            rw [hc0]
            exact examinedFrom_get?0 (updKeys m v) (updSize m) _ cs0
          · rw [hcut, hn]
            rfl
          · rw [hcut, hz]
            rfl
          · intro k c' hk _
            exact absurd hk (Nat.not_lt_zero k)
    · exact ⟨n, c, hget, by rw [hcut]; exact hno, by rw [hcut]; exact hzo, hprev⟩

/-- C4 (amended): every candidate the rearrangement scan examines satisfies
`l1 ≤ log_size ≤ l2` and `z ≤ shift ≤ m - log_size`, where the lower bound
is `l1 = min(max_log_size, max(k, n))` — it involves the CURRENT log size
`k`, not just `[n, n+1]` — and the lookup-miss lower bound `max(k,n)` and
the diagnostic-dump lower bound `min(k,n)` (vtblmap3.hpp lines 534 and 725)
differ whenever `k ≠ n` (both within `max_log_size`). -/
theorem c4_candidate_ranges (m : vtblmap) (v : Nat) (c : Nat × Nat)
    (hc : c ∈ updExamined m v) :
    (updL1 m ≤ c.1 ∧ c.1 ≤ updL2 m ∧ updZ m v ≤ c.2 ∧ c.1 + c.2 ≤ updM m v) ∧
    updL1 m = lowerMiss (updK m) (updN m) ∧
    ∀ k n : Nat, k ≤ max_log_size → n ≤ max_log_size → k ≠ n →
      lowerMiss k n ≠ lowerDump k n := by
  refine ⟨?_, rfl, ?_⟩
  · rcases examinedFrom_prefix (updKeys m v) (updSize m) (updCands m v)
      with ⟨rest, hrest⟩
    have hmem : c ∈ updCands m v := by
      have hc' : c ∈ examinedFrom (updKeys m v) (updSize m) (updCands m v) := hc
      rw [hrest]
      exact List.mem_append_left rest hc'
    exact mem_candidateList hmem
  · intro k n hk hn hkn
    rw [lowerMiss, lowerDump]
    rw [max_log_size] at hk hn ⊢
    omega

/-- C5: the candidate scan stops at the first zero-collision candidate —
the scan over all candidates equals the scan over the examined prefix, of
which only the last element can be zero-collision — and the collision
budget is reset to 1 exactly when a zero-collision candidate was examined,
and to 4 otherwise. -/
theorem c5_short_circuit (E : List Nat → Int) (m : vtblmap) (v : Nat) :
    updScan E m v
      = scanAll E (updKeys m v) (updSize m) (initScan m v) (updExamined m v) ∧
    (∀ c ∈ (updExamined m v).dropLast,
        occupied (histFor (updKeys m v) c.1 c.2) ≠ updSize m) ∧
    (∃ rest, updCands m v = updExamined m v ++ rest) ∧
    (update E m v).1.collisions_before_update =
      (if (updExamined m v).any
          (fun c => occupied (histFor (updKeys m v) c.1 c.2) == updSize m)
        then 1 else 4) := by
  refine ⟨scan_cut E (updKeys m v) (updSize m) (updCands m v) (initScan m v) rfl,
    examinedFrom_dropLast (updKeys m v) (updSize m) (updCands m v),
    examinedFrom_prefix (updKeys m v) (updSize m) (updCands m v), ?_⟩
  show (updScan E m v).coll = _
  rw [show updScan E m v = scanAll E (updKeys m v) (updSize m) (initScan m v)
      (updCands m v) from rfl]
  rw [scan_coll_char E (updKeys m v) (updSize m) (updCands m v) (initScan m v) rfl]
  rfl

/-- C7: idempotence under stability.  Starting from a state whose cache
holds every table identity in its own slot (the state left by a
zero-collision rearrangement), any sequence of `get` calls on identities of
the table consists solely of cache hits: the cache, its mask and shift, the
table's keys, `last_table_size` and the collision budget are all unchanged,
and the budget stays positive. -/
theorem c7_idempotent_stability (E : List Nat → Int) (m : vtblmap)
    (ids : List Nat) (hI : Inv m) (hP : PerfectCache m)
    (hids : ∀ v ∈ ids, v ∈ keysOf m.table) :
    (runGets E m ids).cache = m.cache ∧
    (runGets E m ids).cache_mask = m.cache_mask ∧
    (runGets E m ids).optimal_shift = m.optimal_shift ∧
    keysOf (runGets E m ids).table = keysOf m.table ∧
    (runGets E m ids).last_table_size = m.last_table_size ∧
    (runGets E m ids).collisions_before_update = m.collisions_before_update ∧
    1 ≤ (runGets E m ids).collisions_before_update := by
  obtain ⟨h1, h2, h3, h4, h5, h6⟩ := runGets_perfect E ids m hP hids
  obtain ⟨_, _, _, hcoll, _, _⟩ := hI
  exact ⟨h1, h2, h3, h6, h4, h5, by rw [h5]; exact hcoll⟩

/-- C8 (amended): after construction with hint `expected_size ≥ 1` the cache
has exactly `2^min(max_log_size, req_bits(expected_size-1))` slots — bounded
above by `2^max_log_size`, and at least `2^min_log_size` slots only when the
hint is at least the default `min_expected_size`; there is no lower clamp at
`min_log_size` in the constructor, so smaller hints yield smaller caches. -/
theorem c8_construction_bounds (es : Nat) (_hes : 1 ≤ es) :
    (vtblmapInit es).cache_mask + 1
        = 2 ^ min max_log_size (req_bits (es - 1)) ∧
    (vtblmapInit es).cache.length = (vtblmapInit es).cache_mask + 1 ∧
    (vtblmapInit es).cache_mask + 1 ≤ 2 ^ max_log_size ∧
    (min_expected_size ≤ es →
      2 ^ min_log_size ≤ (vtblmapInit es).cache_mask + 1) := by
  have hpow : 1 ≤ 2 ^ min max_log_size (req_bits (es - 1)) := Nat.one_le_two_pow
  have h1 : (vtblmapInit es).cache_mask + 1
      = 2 ^ min max_log_size (req_bits (es - 1)) := by
    show 2 ^ min max_log_size (req_bits (es - 1)) - 1 + 1 = _
    omega
  refine ⟨h1, ?_, ?_, ?_⟩
  · show (List.replicate (2 ^ min max_log_size (req_bits (es - 1)))
        emptyEntry).length = _
    rw [List.length_replicate, h1]
  · rw [h1]
    exact Nat.pow_le_pow_right (by norm_num) (min_le_left _ _)
  · intro hmin
    rw [h1]
    refine Nat.pow_le_pow_right (by norm_num) ?_
    have h3 : 3 ≤ req_bits (es - 1) := by
      refine req_bits_ge_three ?_
      rw [min_expected_size] at hmin
      omega
    have h4 : (3:Nat) ≤ max_log_size := by rw [max_log_size]; omega
    rw [min_log_size]
    omega

/-! ## Concrete runs used by the counterexamples and witnesses -/

/-- The constant-zero entropy functional, used to exercise the
`E`-parametric theorems at a concrete instance. -/
def zeroEntropy : List Nat → Int := fun _ => 0

/-- State after `get` on identities 16, 32, 48 from a default-constructed
map: three entries, no rearrangement yet, and the fourth identity 144
collides with 16 in slot 1 under the initial shift 4. -/
def mapC3 : vtblmap := runGets entropyScore (vtblmapInit 8) [16, 32, 48]

/-- State after a single `get` on identity 16 from a default-constructed
map; identity 1168 then collides with it in slot 1 under the initial
shift 4 and triggers a rearrangement. -/
def mapC4 : vtblmap := runGets entropyScore (vtblmapInit 8) [16]

/-- State after `get` on 16 and then 1168: the collision triggered a
rearrangement whose very first candidate (log size 3, shift 7) had zero
collisions, leaving a perfectly arranged cache. -/
def mapC7 : vtblmap := runGets entropyScore (vtblmapInit 8) [16, 1168]

/-- C3 counterexample: in the rearrangement triggered by `get 144` on
`mapC3`, exactly the candidates (3,4) and (3,5) are examined, their
histograms ([_,2,1,1,...] in buckets 1,2,3 versus 0,1,4) have the same count
multiset and hence exactly equal entropy (in the double computation as in
`entropyScore`), yet the map adopts shift 4 — the SMALLER of the two
equal-entropy shifts — contradicting the claim that the larger shift is
selected on ties. -/
theorem c3_tie_break_cex :
    updExamined mapC3 144 = [(3, 4), (3, 5)] ∧
    entropyScore (histFor (updKeys mapC3 144) 3 4)
        = entropyScore (histFor (updKeys mapC3 144) 3 5) ∧
    get entropyScore mapC3 144 = update entropyScore mapC3 144 ∧
    (get entropyScore mapC3 144).1.optimal_shift = 4 ∧
    ¬(get entropyScore mapC3 144).1.optimal_shift = 5 := by
  decide

/-- C4 counterexample: in the rearrangement triggered by `get 1168` on
`mapC4` the examined candidate has log size 3, while `n = req_bits(2-1) = 1`
— so the claimed range `[n, n+1] = [1, 2]` does not contain it (the code
uses `max(k, n) = 3` as the lower bound, not `n`); moreover on the same
state the lookup-miss lower bound is 3 while the diagnostic-dump lower
bound is `min(k, n) = 1`: the two paths do NOT use the same lower bound. -/
theorem c4_log_range_cex :
    updExamined mapC4 1168 = [(3, 7)] ∧
    updN mapC4 = 1 ∧
    ¬(3 ≤ 1 + 1) ∧
    get entropyScore mapC4 1168 = update entropyScore mapC4 1168 ∧
    lowerMiss (updK mapC4) (updN mapC4) = 3 ∧
    lowerDump (updK mapC4) (updN mapC4) = 1 := by
  decide

/-- C8 counterexample: the constructor applies no lower clamp, so the hint
`expected_size = 2` produces a cache of 2 slots, below the claimed minimum
of `2^min_log_size = 8` slots. -/
theorem c8_min_size_cex :
    (vtblmapInit 2).cache_mask + 1 = 2 ∧
    (vtblmapInit 2).cache.length = 2 ∧
    2 < 2 ^ min_log_size := by
  decide

/-! ## Witnesses -/

/-- C1 witness: the run [16, 32, 16] hands out addresses [0, 1, 0]; calls 0
and 2 share identity 16 and the same address. -/
theorem c1_mapping_correctness_witness :
    ((1:Nat) ≤ 8) ∧ (∀ v ∈ ([16, 32, 16] : List Nat), v ≠ 0) ∧
    (([16, 32, 16] : List Nat).get? 0 = some 16) ∧
    (([16, 32, 16] : List Nat).get? 2 = some 16) ∧
    ((runTrace entropyScore (vtblmapInit 8) [16, 32, 16]).get? 0 = some 0) ∧
    ((runTrace entropyScore (vtblmapInit 8) [16, 32, 16]).get? 2 = some 0) ∧
    (((16:Nat) = 16 → (0:Nat) = 0) ∧ ((16:Nat) ≠ 16 → (0:Nat) ≠ 0)) :=
  ⟨by norm_num, by decide, by decide, by decide, by decide, by decide,
   c1_mapping_correctness entropyScore 8 [16, 32, 16] 0 2 16 16 0 0
     (by norm_num) (by decide) (by decide) (by decide) (by decide) (by decide)⟩

/-- C2 witness: the entry for identity 16 at address 0 survives, unchanged,
the insertion of 32 and the rearrangement triggered by 1168. -/
theorem c2_reference_stability_witness :
    Inv (vtblmapInit 8) ∧ (16:Nat) ≠ 0 ∧
    (∀ v ∈ ([32, 1168] : List Nat), v ≠ 0 ∧ v ≠ 16) ∧
    (∃ e : TableEntry, e.key = 16 ∧
      (get entropyScore (vtblmapInit 8) 16).1.table.get?
          (get entropyScore (vtblmapInit 8) 16).2 = some e ∧
      (runGets entropyScore (get entropyScore (vtblmapInit 8) 16).1
          [32, 1168]).table.get?
          (get entropyScore (vtblmapInit 8) 16).2 = some e) :=
  ⟨by decide, by decide, by decide,
   c2_reference_stability entropyScore (vtblmapInit 8) 16 [32, 1168]
     (by decide) (by decide) (by decide)⟩

/-- C3 witness: the amended selection theorem at the concrete rearrangement
of `mapC3` with the constant-zero entropy functional. -/
theorem c3_entropy_selection_witness :
    (∀ h : List Nat, 0 ≤ zeroEntropy h) ∧
    ((∀ c ∈ updExamined mapC3 144,
        zeroEntropy (histFor (updKeys mapC3 144) c.1 c.2)
          ≤ zeroEntropy (histFor (updKeys mapC3 144)
              (updScan zeroEntropy mapC3 144).no
              (updScan zeroEntropy mapC3 144).zo)) ∧
      (updExamined mapC3 144 ≠ [] →
        ∃ n c, (updExamined mapC3 144).get? n = some c ∧
          (updScan zeroEntropy mapC3 144).no = c.1 ∧
          (updScan zeroEntropy mapC3 144).zo = c.2 ∧
          ∀ k c', k < n → (updExamined mapC3 144).get? k = some c' →
            zeroEntropy (histFor (updKeys mapC3 144) c'.1 c'.2)
              < zeroEntropy (histFor (updKeys mapC3 144) c.1 c.2))) :=
  ⟨fun _ => le_refl 0,
   c3_entropy_selection zeroEntropy mapC3 144 (fun _ => le_refl 0)⟩

/-- C4 witness: the amended range theorem at the examined candidate (3,7)
of the rearrangement of `mapC4`. -/
theorem c4_candidate_ranges_witness :
    ((3, 7) ∈ updExamined mapC4 1168) ∧
    ((updL1 mapC4 ≤ 3 ∧ 3 ≤ updL2 mapC4 ∧ updZ mapC4 1168 ≤ 7 ∧
        3 + 7 ≤ updM mapC4 1168) ∧
      updL1 mapC4 = lowerMiss (updK mapC4) (updN mapC4) ∧
      ∀ k n : Nat, k ≤ max_log_size → n ≤ max_log_size → k ≠ n →
        lowerMiss k n ≠ lowerDump k n) :=
  ⟨by decide, c4_candidate_ranges mapC4 1168 (3, 7) (by decide)⟩

/-- C5 witness: the short-circuit theorem at the concrete rearrangement of
`mapC4`, whose first candidate already has zero collisions. -/
theorem c5_short_circuit_witness :
    updScan entropyScore mapC4 1168
      = scanAll entropyScore (updKeys mapC4 1168) (updSize mapC4)
          (initScan mapC4 1168) (updExamined mapC4 1168) ∧
    (∀ c ∈ (updExamined mapC4 1168).dropLast,
        occupied (histFor (updKeys mapC4 1168) c.1 c.2) ≠ updSize mapC4) ∧
    (∃ rest, updCands mapC4 1168 = updExamined mapC4 1168 ++ rest) ∧
    (update entropyScore mapC4 1168).1.collisions_before_update =
      (if (updExamined mapC4 1168).any
          (fun c => occupied (histFor (updKeys mapC4 1168) c.1 c.2)
            == updSize mapC4)
        then 1 else 4) :=
  c5_short_circuit entropyScore mapC4 1168

/-- C6 witness: a fresh identity on a fresh map is appended at address 0
with the default payload. -/
theorem c6_total_insertion_witness :
    Inv (vtblmapInit 8) ∧ (16:Nat) ≠ 0 ∧
    tableFind (vtblmapInit 8).table 16 = none ∧
    ((get entropyScore (vtblmapInit 8) 16).2 = (vtblmapInit 8).table.length ∧
      (get entropyScore (vtblmapInit 8) 16).1.table
        = (vtblmapInit 8).table ++ [⟨16, 0, 1⟩]) :=
  ⟨by decide, by decide, by decide,
   c6_total_insertion entropyScore (vtblmapInit 8) 16
     (by decide) (by decide) (by decide)⟩

/-- C7 witness: after the zero-collision rearrangement of `mapC7`, further
gets on 16 and 1168 are pure cache hits. -/
theorem c7_idempotent_stability_witness :
    Inv mapC7 ∧ PerfectCache mapC7 ∧
    (∀ v ∈ ([1168, 16, 16] : List Nat), v ∈ keysOf mapC7.table) ∧
    ((runGets entropyScore mapC7 [1168, 16, 16]).cache = mapC7.cache ∧
      (runGets entropyScore mapC7 [1168, 16, 16]).cache_mask = mapC7.cache_mask ∧
      (runGets entropyScore mapC7 [1168, 16, 16]).optimal_shift
        = mapC7.optimal_shift ∧
      keysOf (runGets entropyScore mapC7 [1168, 16, 16]).table
        = keysOf mapC7.table ∧
      (runGets entropyScore mapC7 [1168, 16, 16]).last_table_size
        = mapC7.last_table_size ∧
      (runGets entropyScore mapC7 [1168, 16, 16]).collisions_before_update
        = mapC7.collisions_before_update ∧
      1 ≤ (runGets entropyScore mapC7 [1168, 16, 16]).collisions_before_update) :=
  ⟨by decide, by decide, by decide,
   c7_idempotent_stability entropyScore mapC7 [1168, 16, 16]
     (by decide) (by decide) (by decide)⟩

/-- C8 witness: the amended construction bounds at the default hint 8. -/
theorem c8_construction_bounds_witness :
    ((1:Nat) ≤ 8) ∧
    ((vtblmapInit 8).cache_mask + 1 = 2 ^ min max_log_size (req_bits (8 - 1)) ∧
      (vtblmapInit 8).cache.length = (vtblmapInit 8).cache_mask + 1 ∧
      (vtblmapInit 8).cache_mask + 1 ≤ 2 ^ max_log_size ∧
      (min_expected_size ≤ 8 →
        2 ^ min_log_size ≤ (vtblmapInit 8).cache_mask + 1)) :=
  ⟨by norm_num, c8_construction_bounds 8 (by norm_num)⟩

/-- C10 witness: the invariant after a run that includes a rearrangement. -/
theorem c10_cache_slot_invariant_witness :
    ((1:Nat) ≤ 8) ∧ (∀ v ∈ ([16, 1168, 32] : List Nat), v ≠ 0) ∧
    Inv (runGets entropyScore (vtblmapInit 8) [16, 1168, 32]) :=
  ⟨by norm_num, by decide,
   c10_cache_slot_invariant entropyScore 8 [16, 1168, 32]
     (by norm_num) (by decide)⟩

end Vtbl
